import Mathlib

/-!
Sub-Store rule script: node-name normalisation and configuration assembly.

A shallow embedding of `sub-store-clash-rules-enhanced.js`.

* Strings are sequences of Unicode characters.  The script's patterns are written without the
  `u` flag, so the engine walks UTF-16 code units; every pattern atom of the script is either a
  single BMP character (or class of BMP characters) or a run of complete surrogate pairs, so on
  well-formed strings the two walks visit the same match positions.
* A regular expression is a syntax tree (`Regex`) run by a backtracking matcher that returns the
  possible continuations in priority order, which is the order in which the ECMAScript matcher
  tries them.
* A configuration object is a record of the keys the script reads, plus an association list for
  every other key.
-/

namespace SubStore

/-! ## Regular expressions -/

/-- The fragment of ECMAScript pattern syntax that occurs in `regexConfig`. -/
inductive Regex where
  /-- The empty pattern. -/
  | eps
  /-- A pattern character. -/
  | chr (c : Char)
  /-- A character class listing its members, such as `[xX×]`. -/
  | anyOf (cs : List Char)
  /-- The class `\d`, equally `[0-9]`. -/
  | digit
  /-- The class `\s`. -/
  | space
  /-- The wildcard `.` (no `s` flag). -/
  | dot
  /-- The assertion `^` (no `m` flag). -/
  | bol
  /-- The assertion `$` (no `m` flag). -/
  | eol
  /-- Concatenation. -/
  | seq (a b : Regex)
  /-- Ordered alternation `a|b`. -/
  | alt (a b : Regex)
  /-- Greedy `a*`. -/
  | star (a : Regex)
  /-- Lazy `a*?`. -/
  | lazyStar (a : Regex)
  /-- Negative lookahead `(?!a)`. -/
  | notAhead (a : Regex)

/-- Canonicalize of the ECMAScript matcher without the `u` flag: upper-casing when `i` is set.
Upper-casing is modelled on ASCII letters; no character outside ASCII upper-cases to a character
of the script's patterns, and the matcher never maps a non-ASCII character to an ASCII one. -/
def canonicalize (ic : Bool) (c : Char) : Char :=
  if ic then c.toUpper else c

/-- Pattern character `p` matches input character `c`. -/
def eqChar (ic : Bool) (p c : Char) : Bool :=
  canonicalize ic p == canonicalize ic c

/-- Members of `[0-9]`, by code point. -/
def isDigit (c : Char) : Bool := 48 ≤ c.toNat && c.toNat ≤ 57

/-- Members of `\s`: ECMAScript white space and line terminators. -/
def isSpace (c : Char) : Bool :=
  c.toNat == 9 || c.toNat == 10 || c.toNat == 11 || c.toNat == 12 || c.toNat == 13 ||
  c.toNat == 32 || c.toNat == 160 || c.toNat == 0x1680 ||
  (0x2000 ≤ c.toNat && c.toNat ≤ 0x200A) || c.toNat == 0x2028 || c.toNat == 0x2029 ||
  c.toNat == 0x202F || c.toNat == 0x205F || c.toNat == 0x3000 || c.toNat == 0xFEFF

/-- Line terminators, which `.` does not match. -/
def isLineTerminator (c : Char) : Bool :=
  c.toNat == 10 || c.toNat == 13 || c.toNat == 0x2028 || c.toNat == 0x2029

/-- Consume one character satisfying `p`. -/
def atom (p : Char → Bool) : List Char → List (List Char)
  | [] => []
  | x :: xs => if p x then [xs] else []

/-- Greedy iteration of `step`: another round first, stopping here last.  A round that consumes
nothing is rejected, as in RepeatMatcher; `fuel` bounds the rounds and the input length always
suffices. -/
def starLoop (step : List Char → List (List Char)) : Nat → List Char → List (List Char)
  | 0, s => [s]
  | f + 1, s =>
    ((step s).filter (fun t => decide (t.length < s.length))).flatMap (starLoop step f) ++ [s]

/-- Lazy iteration of `step`: stopping here first, another round afterwards. -/
def lazyLoop (step : List Char → List (List Char)) : Nat → List Char → List (List Char)
  | 0, s => [s]
  | f + 1, s =>
    s :: ((step s).filter (fun t => decide (t.length < s.length))).flatMap (lazyLoop step f)

/-- The backtracking matcher.  `run ic n r s` lists, in priority order, the suffixes of the
input left after `r` has matched a prefix of `s`; `n` is the length of the whole input, which
`^` needs, and `ic` is the `i` flag. -/
def Regex.run (ic : Bool) (n : Nat) : Regex → List Char → List (List Char)
  | .eps, s => [s]
  | .chr c, s => atom (eqChar ic c) s
  | .anyOf cs, s => atom (fun x => cs.any (fun c => eqChar ic c x)) s
  | .digit, s => atom isDigit s
  | .space, s => atom isSpace s
  | .dot, s => atom (fun x => !isLineTerminator x) s
  | .bol, s => if s.length = n then [s] else []
  | .eol, s => if s.isEmpty then [s] else []
  | .seq a b, s => (run ic n a s).flatMap (run ic n b)
  | .alt a b, s => run ic n a s ++ run ic n b s
  | .star a, s => starLoop (run ic n a) s.length s
  | .lazyStar a, s => lazyLoop (run ic n a) s.length s
  | .notAhead a, s => if (run ic n a s).isEmpty then [s] else []

/-- A literal run of pattern characters. -/
def lit (s : String) : Regex :=
  s.data.foldr (fun c r => Regex.seq (.chr c) r) .eps

/-- The alternation `a|b|c|…`. -/
def alts : List Regex → Regex
  | [] => .anyOf []
  | [a] => a
  | a :: b :: rest => .alt a (alts (b :: rest))

/-- Greedy `a?`, for an `a` that consumes at least one character. -/
def opt (a : Regex) : Regex := .alt a .eps

/-- Greedy `a+`. -/
def plus (a : Regex) : Regex := .seq a (.star a)

/-- A RegExp object: pattern and flags.  None of the script's calls depends on `lastIndex`. -/
structure RegExp where
  source : Regex
  ignoreCase : Bool := false
  global : Bool := false

/-- Leftmost match of `r` in the suffix `s` of an input of length `n`: the characters skipped,
the characters matched and the characters left. -/
def search (ic : Bool) (n : Nat) (r : Regex) :
    List Char → Option (List Char × List Char × List Char)
  | [] =>
    match r.run ic n [] with
    | t :: _ => some ([], [], t)
    | [] => none
  | c :: cs =>
    match r.run ic n (c :: cs) with
    | t :: _ => some ([], (c :: cs).take ((c :: cs).length - t.length), t)
    | [] => (search ic n r cs).map (fun x => (c :: x.1, x.2.1, x.2.2))

/-- The call `re.exec(s)` with `lastIndex` 0. -/
def RegExp.exec (re : RegExp) (s : String) : Option (List Char × List Char × List Char) :=
  search re.ignoreCase s.data.length re.source s.data

/-- The call `re.test(s)` on a RegExp without the `g` flag. -/
def RegExp.test (re : RegExp) (s : String) : Bool := (re.exec s).isSome

/-- The expression `s.match(re)?.[0]` for a RegExp without the `g` flag. -/
def strMatch (s : String) (re : RegExp) : Option String :=
  (re.exec s).map (fun x => String.mk x.2.1)

/-- Global replacement: every match, left to right, is replaced; after an empty match the
search resumes one character further on. -/
def replaceLoop (ic : Bool) (n : Nat) (r : Regex) (repl : List Char) :
    Nat → List Char → List Char
  | 0, s => s
  | f + 1, s =>
    match search ic n r s with
    | none => s
    | some (pre, [], []) => pre ++ repl
    | some (pre, [], c :: cs) => pre ++ repl ++ c :: replaceLoop ic n r repl f cs
    | some (pre, _ :: _, t) => pre ++ repl ++ replaceLoop ic n r repl f t

/-- The call `s.replace(re, repl)` for a replacement text without `$`: all matches when `re` is
global, the first match otherwise. -/
def strReplace (s : String) (re : RegExp) (repl : String) : String :=
  if re.global then
    String.mk (replaceLoop re.ignoreCase s.data.length re.source repl.data
      (s.data.length + 1) s.data)
  else
    match re.exec s with
    | none => s
    | some (pre, _, t) => String.mk (pre ++ repl.data ++ t)

/-! ## regexConfig -/

namespace regexConfig

/-- The junk keywords. -/
def removeNodes : RegExp :=
  { source := alts ((["套餐", "到期", "有效", "剩余", "版本", "已用", "过期", "失联", "测试", "官方",
      "网址", "备用", "群", "TEST", "客服", "网站", "获取", "订阅", "流量", "机场", "下次", "官址",
      "联系", "邮箱", "工单", "学术"].map lit) ++
      [Regex.seq (lit "USE") (opt (.anyOf ['D'])), lit "TOTAL", lit "EXPIRE", lit "EMAIL"]),
    ignoreCase := true }

/-- The pattern `\d+(?:\.\d+)?` inside `multiplier`. -/
def decimal : Regex := .seq (plus .digit) (opt (.seq (.chr '.') (plus .digit)))

/-- The rate multiplier. -/
def multiplier : RegExp :=
  { source := .alt (.seq decimal (.anyOf ['x', 'X', '×'])) (.seq (.anyOf ['x', 'X', '×']) decimal) }

/-- The region table, in insertion order. -/
def regions : List (String × RegExp) :=
  [ ("HK", { source := .seq .bol (alts (["香港", "HK", "Hong Kong", "🇭🇰"].map lit)),
             ignoreCase := true }),
    ("SG", { source := .seq .bol (alts (["新加坡", "狮城", "SG", "Singapore", "🇸🇬"].map lit)),
             ignoreCase := true }),
    ("JP", { source := .seq .bol (alts (["日本", "JP", "Japan", "🇯🇵"].map lit)),
             ignoreCase := true }),
    ("US", { source := .seq .bol (alts (["美国", "US", "United States", "🇺🇸"].map lit)),
             ignoreCase := true }),
    ("TW", { source := .seq .bol (alts (["台湾", "TW", "Taiwan", "🇹🇼"].map lit)),
             ignoreCase := true }),
    ("KR", { source := .seq .bol (alts (["韩国", "KR", "Korea", "🇰🇷"].map lit)),
             ignoreCase := true }) ]

/-- The special tags. -/
def specialTags : RegExp :=
  { source := alts (["IPLC", "IEPL", "BGP", "RELAY", "PREMIUM", "PLUS", "PRO", "GAME"].map lit),
    ignoreCase := true }

/-- The pattern `[0-9]{1,2}` inside `number`. -/
def digits12 : Regex := .seq .digit (opt .digit)

/-- The trailing ordinal. -/
def number : RegExp :=
  { source := .seq (.star .space)
      (.seq (.alt digits12 (.seq digits12 (.seq (.chr '.') digits12)))
        (.seq (.star .space) .eol)) }

/-- The group `(深|沪|呼|京|广|杭)`. -/
def city : Regex := alts (["深", "沪", "呼", "京", "广", "杭"].map lit)

/-- The lookahead `(?!.*(I|线))`. -/
def noLine : Regex := .notAhead (.seq (.star .dot) (.alt (lit "I") (lit "线")))

/-- The group `(台|Tai\s?wan|TW)`. -/
def taiwan : Regex := alts [lit "台", .seq (lit "Tai") (.seq (opt .space) (lit "wan")), lit "TW"]

/-- The substitution table, in insertion order: replacement text and pattern. -/
def regionReplace : List (String × RegExp) :=
  [ ("GB", { source := lit "UK", global := true }),
    ("B-G-P", { source := lit "BGP", global := true }),
    ("Russia Moscow", { source := lit "Moscow", global := true }),
    ("Korea Chuncheon", { source := .alt (lit "Chuncheon") (lit "Seoul"), global := true }),
    ("Hong Kong", { source := .alt (lit "Hongkong") (lit "HONG KONG"),
                    ignoreCase := true, global := true }),
    ("United Kingdom London",
      { source := .alt (lit "London") (lit "Great Britain"), global := true }),
    ("Dubai United Arab Emirates", { source := lit "United Arab Emirates", global := true }),
    ("Taiwan TW 台湾 🇹🇼",
      { source := .alt (.seq taiwan (.seq (.lazyStar .dot) (lit "🇨🇳")))
                       (.seq (lit "🇨🇳") (.seq (.lazyStar .dot) taiwan)),
        global := true }),
    ("United States",
      { source := alts (["USA", "Los Angeles", "San Jose", "Silicon Valley", "Michigan"].map lit),
        global := true }),
    ("澳大利亚",
      { source := alts [lit "澳洲", lit "墨尔本", lit "悉尼", lit "土澳", .seq city (lit "澳")],
        global := true }),
    ("德国",
      { source := alts [.seq city (.seq (lit "德") noLine), lit "法兰克福", lit "滬德"],
        global := true }),
    ("香港", { source := .seq city (.seq (lit "港") noLine), global := true }),
    ("日本",
      { source := alts [.seq (alts (["深", "沪", "呼", "京", "广", "杭", "中", "辽"].map lit))
                          (.seq (lit "日") noLine), lit "东京", lit "大坂"],
        global := true }),
    ("新加坡", { source := .alt (lit "狮城") (.seq city (lit "新")), global := true }),
    ("美国",
      { source := alts ([.seq city (lit "美")] ++
          (["波特兰", "芝加哥", "哥伦布", "纽约", "硅谷", "俄勒冈", "西雅图", "芝加哥"].map lit)),
        global := true }) ]

end regexConfig

/-! ## Node clean-up -/

/-- A proxy node: its name and the transport fields, which the script never looks at. -/
structure ProxyNode (ω : Type) where
  name : String
  fields : ω
deriving DecidableEq, Repr

/-- The object returned by `processNodeName`. -/
structure NodeName where
  name : String
  region : Option String
  multiplier : Option String
  specialTag : Option String
deriving DecidableEq, Repr

/-- The name after the substitutions of `regionReplace`, applied in table order. -/
def substituted (name : String) : String :=
  regexConfig.regionReplace.foldl (fun acc e => strReplace acc e.2 e.1) name

/-- The name after the substitutions and the removal of the trailing ordinal. -/
def stripped (name : String) : String :=
  strReplace (substituted name) regexConfig.number ""

/-- The statement `if (v) newName.push(v)`: a missing or empty value is not pushed. -/
def pushIf (newName : List String) (v : Option String) : List String :=
  match v with
  | some s => if s ≠ "" then newName ++ [s] else newName
  | none => newName

/-- The function `processNodeName` on a string.  No step of its body throws on a string, so the
`catch` branch returning `null` is never taken. -/
def processNodeName (name : String) : NodeName :=
  let processedName := stripped name
  let region := (regexConfig.regions.find? (fun e => e.2.test processedName)).map (fun e => e.1)
  let multiplier := strMatch processedName regexConfig.multiplier
  let specialTag := strMatch processedName regexConfig.specialTags
  let newName := pushIf (pushIf (pushIf [] region) specialTag) multiplier
  { name := if " ".intercalate newName ≠ "" then " ".intercalate newName else processedName,
    region := region,
    multiplier := multiplier,
    specialTag := specialTag }

/-- The callback of `cleanNodes`: `none` when the node is filtered out, the renamed node when it
is kept. -/
def cleanNode {ω : Type} (proxy : ProxyNode ω) : Option (ProxyNode ω) :=
  if regexConfig.removeNodes.test proxy.name then none
  else some { proxy with name := (processNodeName proxy.name).name }

/-- The function `cleanNodes`: filter with in-place renaming of the nodes kept. -/
def cleanNodes {ω : Type} (proxies : List (ProxyNode ω)) : List (ProxyNode ω) :=
  proxies.filterMap cleanNode

/-! ## Configuration objects -/

/-- The global `scriptName`. -/
def scriptName : String := "Sub-Store Rules"

/-- The global `proxyName`. -/
def proxyName : String := "代理模式"

/-- A rule provider. -/
structure RuleProvider where
  type : String
  behavior : String
  url : String
  path : String
  interval : Nat
deriving DecidableEq, Repr

/-- A proxy group; the keys a group literal leaves out are `none`. -/
structure ProxyGroup where
  name : String
  type : String
  proxies : List String
  url : Option String := none
  interval : Option Nat := none
  tolerance : Option Nat := none
  maxFailedTimes : Option Nat := none
  lazy : Option Bool := none
  strategy : Option String := none
  hidden : Option Bool := none
  icon : Option String := none
deriving DecidableEq, Repr

/-- Values stored under the keys of a configuration object.  `given` wraps a value that came
with the input and that the script never looks into. -/
inductive Value (ω : Type) where
  | given (w : ω)
  | bool (b : Bool)
  | num (n : Nat)
  | str (s : String)
  | list (l : List (Value ω))
  | obj (o : List (String × Value ω))
  | rules (l : List String)
  | providers (l : List (String × RuleProvider))
  | groups (l : List ProxyGroup)

/-- An object: its own keys in insertion order. -/
abbrev Obj (ω : Type) := List (String × Value ω)

/-- The assignment `o[k] = v`: an existing key keeps its place, a new key goes last. -/
def setKey {ω : Type} (o : Obj ω) (k : String) (v : Value ω) : Obj ω :=
  if o.any (fun e => e.1 == k) then o.map (fun e => if e.1 == k then (k, v) else e)
  else o ++ [(k, v)]

/-- The call `Object.assign(o, src)`, equally the spread of `src` over `o`. -/
def assign {ω : Type} (o src : Obj ω) : Obj ω :=
  src.foldl (fun acc e => setKey acc e.1 e.2) o

/-- The configuration handed to `main`: the `proxies` key (absent, or a list of nodes), the
`dns` key (absent, or an object) and every other key. -/
structure Params (ω : Type) where
  proxies : Option (List (ProxyNode ω))
  dns : Option (Obj ω)
  fields : Obj ω

/-- An error thrown by the script or by the engine. -/
structure JsError where
  message : String
deriving DecidableEq, Repr

/-- A call of `$notification.post(title, subtitle, body)`. -/
structure Notification where
  title : String
  subtitle : String
  body : String
deriving DecidableEq, Repr

/-! ## addRules -/

/-- The constant `customRules` of `addRules`. -/
def customRules : List String := []

/-- The constant `rules` of `addRules`. -/
def rules : List String :=
  customRules ++
  [ "RULE-SET,reject,广告拦截",
    "RULE-SET,direct,DIRECT",
    "RULE-SET,cncidr,DIRECT",
    "RULE-SET,private,DIRECT",
    "RULE-SET,lancidr,DIRECT",
    "GEOIP,LAN,DIRECT,no-resolve",
    "GEOIP,CN,DIRECT,no-resolve",
    "RULE-SET,applications,DIRECT",
    "RULE-SET,openai,ChatGPT",
    "RULE-SET,claude,Claude",
    "RULE-SET,spotify,Spotify",
    "RULE-SET,telegramcidr,电报消息,no-resolve",
    "RULE-SET,tld-not-cn," ++ proxyName,
    "RULE-SET,google," ++ proxyName,
    "RULE-SET,icloud," ++ proxyName,
    "RULE-SET,apple," ++ proxyName,
    "RULE-SET,gfw," ++ proxyName,
    "RULE-SET,greatfire," ++ proxyName,
    "RULE-SET,proxy," ++ proxyName,
    "MATCH,漏网之鱼" ]

/-- The constant `ruleProviders` of `addRules`, keys in insertion order. -/
def ruleProviders : List (String × RuleProvider) :=
  [
    ("reject",
      { type := "http",
        behavior := "domain",
        url := "https://cdn.jsdelivr.net/gh/Loyalsoldier/clash-rules@release/reject.txt",
        path := "/.config/clash/ruleset/custom/reject.yaml",
        interval := 86400 }),
    ("direct",
      { type := "http",
        behavior := "domain",
        url := "https://cdn.jsdelivr.net/gh/Loyalsoldier/clash-rules@release/direct.txt",
        path := "/.config/clash/ruleset/custom/direct.yaml",
        interval := 86400 }),
    ("proxy",
      { type := "http",
        behavior := "domain",
        url := "https://cdn.jsdelivr.net/gh/Loyalsoldier/clash-rules@release/proxy.txt",
        path := "/.config/clash/ruleset/custom/proxy.yaml",
        interval := 86400 }),
    ("icloud",
      { type := "http",
        behavior := "domain",
        url := "https://cdn.jsdelivr.net/gh/Loyalsoldier/clash-rules@release/icloud.txt",
        path := "./ruleset/icloud.yaml",
        interval := 86400 }),
    ("apple",
      { type := "http",
        behavior := "domain",
        url := "https://cdn.jsdelivr.net/gh/Loyalsoldier/clash-rules@release/apple.txt",
        path := "./ruleset/apple.yaml",
        interval := 86400 }),
    ("google",
      { type := "http",
        behavior := "domain",
        url := "https://cdn.jsdelivr.net/gh/Loyalsoldier/clash-rules@release/google.txt",
        path := "./ruleset/google.yaml",
        interval := 86400 }),
    ("private",
      { type := "http",
        behavior := "domain",
        url := "https://cdn.jsdelivr.net/gh/Loyalsoldier/clash-rules@release/private.txt",
        path := "/.config/clash/ruleset/custom/private.yaml",
        interval := 86400 }),
    ("gfw",
      { type := "http",
        behavior := "domain",
        url := "https://cdn.jsdelivr.net/gh/Loyalsoldier/clash-rules@release/gfw.txt",
        path := "/.config/clash/ruleset/custom/gfw.yaml",
        interval := 86400 }),
    ("greatfire",
      { type := "http",
        behavior := "domain",
        url := "https://cdn.jsdelivr.net/gh/Loyalsoldier/clash-rules@release/greatfire.txt",
        path := "/.config/clash/ruleset/custom/greatfire.yaml",
        interval := 86400 }),
    ("tld-not-cn",
      { type := "http",
        behavior := "domain",
        url := "https://cdn.jsdelivr.net/gh/Loyalsoldier/clash-rules@release/tld-not-cn.txt",
        path := "/.config/clash/ruleset/custom/tld-not-cn.yaml",
        interval := 86400 }),
    ("telegramcidr",
      { type := "http",
        behavior := "ipcidr",
        url := "https://cdn.jsdelivr.net/gh/Loyalsoldier/clash-rules@release/telegramcidr.txt",
        path := "/.config/clash/ruleset/custom/telegramcidr.yaml",
        interval := 86400 }),
    ("cncidr",
      { type := "http",
        behavior := "ipcidr",
        url := "https://cdn.jsdelivr.net/gh/Loyalsoldier/clash-rules@release/cncidr.txt",
        path := "/.config/clash/ruleset/custom/cncidr.yaml",
        interval := 86400 }),
    ("lancidr",
      { type := "http",
        behavior := "ipcidr",
        url := "https://cdn.jsdelivr.net/gh/Loyalsoldier/clash-rules@release/lancidr.txt",
        path := "/.config/clash/ruleset/custom/lancidr.yaml",
        interval := 86400 }),
    ("applications",
      { type := "http",
        behavior := "classical",
        url := "https://cdn.jsdelivr.net/gh/Loyalsoldier/clash-rules@release/applications.txt",
        path := "/.config/clash/ruleset/custom/applications.yaml",
        interval := 86400 }),
    ("openai",
      { type := "http",
        behavior := "classical",
        url := "https://raw.githubusercontent.com/blackmatrix7/ios_rule_script/master/rule/Clash/OpenAI/OpenAI.yaml",
        path := "/.config/clash/ruleset/custom/openai.yaml",
        interval := 86400 }),
    ("claude",
      { type := "http",
        behavior := "classical",
        url := "https://raw.githubusercontent.com/blackmatrix7/ios_rule_script/master/rule/Clash/Claude/Claude.yaml",
        path := "/.config/clash/ruleset/custom/claude.yaml",
        interval := 86400 }),
    ("spotify",
      { type := "http",
        behavior := "classical",
        url := "https://raw.githubusercontent.com/blackmatrix7/ios_rule_script/master/rule/Clash/Spotify/Spotify.yaml",
        path := "/.config/clash/ruleset/custom/spotify.yaml",
        interval := 86400 }) ]

/-- The function `addRules`. -/
def addRules {ω : Type} (params : Params ω) : Params ω :=
  { params with
    fields := setKey (setKey params.fields "rule-providers" (.providers ruleProviders))
      "rules" (.rules rules) }

/-! ## addProxyGroups -/

/-- The constant `autoProxyGroups`. -/
def autoProxyGroups (allProxies : List String) : List ProxyGroup :=
  (regexConfig.regions.map (fun e =>
    ({ name := e.1 ++ "-自动选择",
       type := "url-test",
       url := some "http://www.gstatic.com/generate_204",
       interval := some 300,
       tolerance := some 50,
       maxFailedTimes := some 3,
       lazy := some true,
       proxies := allProxies.filter (fun name => e.2.test name),
       hidden := some true } : ProxyGroup))).filter (fun group => decide (group.proxies.length > 0))

/-- The constant `manualProxyGroups`. -/
def manualProxyGroups (allProxies : List String) : List ProxyGroup :=
  (regexConfig.regions.map (fun e =>
    ({ name := e.1 ++ "-手动选择",
       type := "select",
       proxies := "DIRECT" :: allProxies.filter (fun name => e.2.test name),
       hidden := some false } : ProxyGroup))).filter (fun group => decide (group.proxies.length > 1))

/-- The constant `groups`. -/
def groups (allProxies : List String) : List ProxyGroup :=
  [ { name := proxyName,
      type := "select",
      proxies := ["自动选择", "手动选择", "负载均衡(散列)", "负载均衡(轮询)", "DIRECT"],
      icon := some
        "https://fastly.jsdelivr.net/gh/clash-verge-rev/clash-verge-rev.github.io@main/docs/assets/icons/proxy.svg" },
    { name := "手动选择",
      type := "select",
      proxies := allProxies,
      icon := some
        "https://fastly.jsdelivr.net/gh/clash-verge-rev/clash-verge-rev.github.io@main/docs/assets/icons/select.svg" },
    { name := "自动选择",
      type := "url-test",
      url := some "http://www.gstatic.com/generate_204",
      interval := some 300,
      tolerance := some 50,
      maxFailedTimes := some 3,
      lazy := some true,
      proxies := allProxies,
      icon := some
        "https://fastly.jsdelivr.net/gh/clash-verge-rev/clash-verge-rev.github.io@main/docs/assets/icons/auto.svg" },
    { name := "负载均衡(散列)",
      type := "load-balance",
      strategy := some "consistent-hashing",
      url := some "http://www.gstatic.com/generate_204",
      interval := some 300,
      maxFailedTimes := some 3,
      lazy := some true,
      proxies := allProxies,
      icon := some
        "https://fastly.jsdelivr.net/gh/clash-verge-rev/clash-verge-rev.github.io@main/docs/assets/icons/round-robin.svg" },
    { name := "负载均衡(轮询)",
      type := "load-balance",
      strategy := some "round-robin",
      url := some "http://www.gstatic.com/generate_204",
      interval := some 300,
      maxFailedTimes := some 3,
      lazy := some true,
      proxies := allProxies,
      icon := some
        "https://fastly.jsdelivr.net/gh/clash-verge-rev/clash-verge-rev.github.io@main/docs/assets/icons/round-robin.svg" },
    { name := "ChatGPT",
      type := "select",
      proxies := ["美国节点", "日本节点", "手动选择"],
      icon := some
        "https://fastly.jsdelivr.net/gh/clash-verge-rev/clash-verge-rev.github.io@main/docs/assets/icons/chatgpt.svg" },
    { name := "Claude",
      type := "select",
      proxies := ["美国节点", "手动选择"],
      icon := some
        "https://raw.githubusercontent.com/clash-verge-rev/clash-verge-rev.github.io/main/docs/assets/icons/claude.svg" },
    { name := "Spotify",
      type := "select",
      proxies := ["DIRECT", proxyName],
      icon := some
        "https://fastly.jsdelivr.net/gh/clash-verge-rev/clash-verge-rev.github.io@main/docs/assets/icons/spotify.svg" },
    { name := "电报消息",
      type := "select",
      proxies := [proxyName, "手动选择"],
      icon := some
        "https://fastly.jsdelivr.net/gh/clash-verge-rev/clash-verge-rev.github.io@main/docs/assets/icons/telegram.svg" },
    { name := "广告拦截",
      type := "select",
      proxies := ["REJECT", "DIRECT"],
      icon := some
        "https://fastly.jsdelivr.net/gh/clash-verge-rev/clash-verge-rev.github.io@main/docs/assets/icons/reject.svg" } ]
  ++ autoProxyGroups allProxies ++ manualProxyGroups allProxies

/-- The function `addProxyGroups`.  Reading `params.proxies.map` with the key absent is a
TypeError, which the function logs and throws again. -/
def addProxyGroups {ω : Type} (params : Params ω) : Except JsError (Params ω) :=
  match params.proxies with
  | none => .error { message := "params.proxies is undefined" }
  | some proxies =>
    .ok { params with
          fields := setKey params.fields "proxy-groups"
            (.groups (groups (proxies.map (fun p => p.name)))) }

/-! ## addDns -/

/-- The constant `cnDnsList`. -/
def cnDnsList : List String := ["https://223.5.5.5/dns-query", "https://1.12.12.12/dns-query"]

/-- The constant `trustDnsList`. -/
def trustDnsList : List String :=
  ["quic://dns.cooluc.com", "https://1.0.0.1/dns-query", "https://1.1.1.1/dns-query"]

/-- An array of strings as a value. -/
def strs {ω : Type} (l : List String) : Value ω := .list (l.map .str)

/-- The constant `dnsOptions`. -/
def dnsOptions {ω : Type} : Obj ω :=
  [ ("enable", .bool true),
    ("prefer-h3", .bool true),
    ("default-nameserver", strs cnDnsList),
    ("nameserver", strs trustDnsList),
    ("nameserver-policy",
      .obj [("geosite:cn", strs cnDnsList), ("geosite:geolocation-!cn", strs trustDnsList)]),
    ("fallback", strs trustDnsList),
    ("fallback-filter",
      .obj [ ("geoip", .bool true),
             ("geoip-code", .str "CN"),
             ("geosite", strs ["gfw"]),
             ("ipcidr", strs ["240.0.0.0/4"]),
             ("domain", strs ["+.google.com", "+.facebook.com", "+.youtube.com"]) ]) ]

/-- The constant `githubPrefix`. -/
def githubPrefix : String := "https://fastgh.lainbo.com/"

/-- The constant `rawGeoxURLs`. -/
def rawGeoxURLs : List (String × String) :=
  [ ("geoip",
      "https://github.com/MetaCubeX/meta-rules-dat/releases/download/latest/geoip-lite.dat"),
    ("geosite",
      "https://github.com/MetaCubeX/meta-rules-dat/releases/download/latest/geosite.dat"),
    ("mmdb",
      "https://github.com/MetaCubeX/meta-rules-dat/releases/download/latest/country-lite.mmdb") ]

/-- The constant `accelURLs`. -/
def accelURLs {ω : Type} : Obj ω :=
  rawGeoxURLs.map (fun e => (e.1, .str (githubPrefix ++ e.2)))

/-- The constant `otherOptions`. -/
def otherOptions {ω : Type} : Obj ω :=
  [ ("unified-delay", .bool true),
    ("tcp-concurrent", .bool true),
    ("profile", .obj [("store-selected", .bool true), ("store-fake-ip", .bool true)]),
    ("sniffer",
      .obj [ ("enable", .bool true),
             ("sniff",
               .obj [ ("TLS", .obj [("ports", .list [.num 443, .num 8443])]),
                      ("HTTP", .obj [ ("ports", .list [.num 80, .str "8080-8880"]),
                                      ("override-destination", .bool true) ]) ]) ]),
    ("geodata-mode", .bool true),
    ("geox-url", .obj accelURLs) ]

/-- The function `addDns`.  Nothing in its body throws. -/
def addDns {ω : Type} (params : Params ω) : Params ω :=
  { params with
    dns := some (assign (params.dns.getD []) dnsOptions),
    fields := assign params.fields otherOptions }

/-! ## main -/

/-- The `catch` branch of `main`: the notification posted for `err`. -/
def failure (err : JsError) : List Notification :=
  [{ title := scriptName, subtitle := "处理失败", body := err.message }]

/-- The function `main`: the value returned and the notifications posted.  The argument is
`none` when `main` is called without a configuration. -/
def main {ω : Type} (params : Option (Params ω)) : Option (Params ω) × List Notification :=
  match params with
  | none => (none, failure { message := "节点列表为空" })
  | some p =>
    match p.proxies with
    | none => (some p, failure { message := "节点列表为空" })
    | some [] => (some p, failure { message := "节点列表为空" })
    | some (proxy :: more) =>
      let cleaned := addRules { p with proxies := some (cleanNodes (proxy :: more)) }
      match addProxyGroups cleaned with
      | .error err => (some cleaned, failure err)
      | .ok grouped => (some (addDns grouped), [])

/-! ## Reading the emitted configuration -/

/-- The comma-separated fields of a text. -/
def splitComma : List Char → List (List Char)
  | [] => [[]]
  | c :: cs =>
    if c = ',' then [] :: splitComma cs
    else
      match splitComma cs with
      | [] => [[c]]
      | f :: fs => (c :: f) :: fs

/-- The fields of a rule entry: match type, match value, target and flag, in the order in
which the rule string lists them. -/
def ruleFields (rule : String) : List String :=
  (splitComma rule.data).map String.mk

/-- The match type of a rule entry, its first field. -/
def ruleType (rule : String) : String :=
  (ruleFields rule).headD ""

/-- The match value of a rule entry, its second field. -/
def ruleValue (rule : String) : Option String :=
  (ruleFields rule)[1]?

/-- The target of a rule entry: the third field, and for the catch-all `MATCH`, which has no
match value, the second. -/
def ruleTarget (rule : String) : Option String :=
  if ruleType rule = "MATCH" then (ruleFields rule)[1]? else (ruleFields rule)[2]?

/-- An edge of the reference graph of a group list: the group named `g` lists `h`, and `h` is
the name of a group of the list. -/
def refers (gs : List ProxyGroup) (g h : String) : Prop :=
  ∃ G ∈ gs, G.name = g ∧ h ∈ G.proxies ∧ ∃ H ∈ gs, H.name = h

/-- A rank on group names that every reference between emitted groups lowers, when no node
carries the name of a group. -/
def groupRank (g : String) : Nat :=
  if g = "Spotify" ∨ g = "电报消息" then 2
  else if g = "代理模式" ∨ g = "ChatGPT" ∨ g = "Claude" then 1
  else 0

/-! ## Properties of patterns used in the proofs -/

/-- Every character that an atom of the pattern can consume satisfies `P`. -/
def Regex.within (ic : Bool) (P : Char → Prop) : Regex → Prop
  | .eps => True
  | .bol => True
  | .eol => True
  | .notAhead _ => True
  | .chr c => ∀ x, eqChar ic c x = true → P x
  | .anyOf cs => ∀ x, cs.any (fun c => eqChar ic c x) = true → P x
  | .digit => ∀ x, isDigit x = true → P x
  | .space => ∀ x, isSpace x = true → P x
  | .dot => ∀ x, isLineTerminator x = false → P x
  | .seq a b => within ic P a ∧ within ic P b
  | .alt a b => within ic P a ∧ within ic P b
  | .star a => within ic P a
  | .lazyStar a => within ic P a

/-- Every match of the pattern consumes at least one character. -/
def Regex.consuming : Regex → Bool
  | .chr _ => true
  | .anyOf _ => true
  | .digit => true
  | .space => true
  | .dot => true
  | .seq a b => a.consuming || b.consuming
  | .alt a b => a.consuming && b.consuming
  | _ => false

/-- A syntactic check on the atoms of a pattern: every pattern character passes `okChar`, and
the classes `\d`, `\s` and `.` occur only where allowed. -/
def Regex.atoms (okChar : Char → Bool) (okDigit okSpace okDot : Bool) : Regex → Bool
  | .eps => true
  | .bol => true
  | .eol => true
  | .notAhead _ => true
  | .chr c => okChar c
  | .anyOf cs => cs.all okChar
  | .digit => okDigit
  | .space => okSpace
  | .dot => okDot
  | .seq a b => atoms okChar okDigit okSpace okDot a && atoms okChar okDigit okSpace okDot b
  | .alt a b => atoms okChar okDigit okSpace okDot a && atoms okChar okDigit okSpace okDot b
  | .star a => atoms okChar okDigit okSpace okDot a
  | .lazyStar a => atoms okChar okDigit okSpace okDot a

/-- ASCII letters. -/
def isLetter (c : Char) : Bool :=
  (65 ≤ c.toNat && c.toNat ≤ 90) || (97 ≤ c.toNat && c.toNat ≤ 122)

/-- The characters a match of `regexConfig.multiplier` is made of. -/
def isMultiplierChar (c : Char) : Bool :=
  isDigit c || c == '.' || c == 'x' || c == 'X' || c == '×'

/-- The characters a match of `regexConfig.number` is made of. -/
def isNumberChar (c : Char) : Bool :=
  isSpace c || isDigit c || c == '.'

/-- A text without a space at either end and without two spaces in a row. -/
def Tidy (d : List Char) : Prop :=
  d ≠ [] ∧ d.head? ≠ some ' ' ∧ d.getLast? ≠ some ' ' ∧
    d.Chain' (fun a b => ¬(a = ' ' ∧ b = ' '))

/-- A sufficient check that a pattern cannot match at the start of any input that begins with
the characters `p`: `false` means that it cannot. -/
def mayStart (ic : Bool) : Regex → List Char → Bool
  | .chr x, c :: _ => eqChar ic x c
  | .anyOf cs, c :: _ => cs.any (fun x => eqChar ic x c)
  | .digit, c :: _ => isDigit c
  | .space, c :: _ => isSpace c
  | .dot, c :: _ => !isLineTerminator c
  | .seq (.chr x) b, c :: p => eqChar ic x c && mayStart ic b p
  | .seq (.star a) b, p => mayStart ic a p || mayStart ic b p
  | .seq a _, p => mayStart ic a p
  | .alt a b, p => mayStart ic a p || mayStart ic b p
  | _, _ => true

/-- The regional indicator C, the first character of the flag that the Taiwan entry of
`regionReplace` looks for. -/
def flagC : Char := Char.ofNat 0x1F1E8

/-- No match of the pattern starts within a two-letter key followed by a space, on inputs
free of `flagC` after the space. -/
def QuietAt (ic : Bool) (src : Regex) (a b : Char) : Prop :=
  ∀ n r, flagC ∉ r →
    src.run ic n (a :: b :: ' ' :: r) = [] ∧ src.run ic n (b :: ' ' :: r) = [] ∧
      src.run ic n (' ' :: r) = []

/-- The keys of `regexConfig.regions`, as pairs of letters. -/
def keyPairs : List (Char × Char) :=
  [('H', 'K'), ('S', 'G'), ('J', 'P'), ('U', 'S'), ('T', 'W'), ('K', 'R')]

/-- The pattern characters with which a match of a `headed` pattern begins; a leading `^` is
skipped. -/
def Regex.heads : Regex → List Char
  | .chr c => [c]
  | .anyOf cs => cs
  | .seq .bol b => heads b
  | .seq a _ => heads a
  | .alt a b => heads a ++ heads b
  | _ => []

/-- A syntactic check that every match of the pattern begins with a character matched by one
of its `heads`. -/
def Regex.headed : Regex → Bool
  | .chr _ => true
  | .anyOf _ => true
  | .seq .bol b => headed b
  | .seq a _ => headed a
  | .alt a b => headed a && headed b
  | _ => false

/-! ## The matcher: what a match consumes -/

theorem mem_atom {p : Char → Bool} {s t : List Char} :
    t ∈ atom p s ↔ ∃ x, s = x :: t ∧ p x = true := by
  cases s with
  | nil => simp [atom]
  | cons y ys =>
    by_cases h : p y = true
    · simp only [atom, h, if_true, List.mem_singleton, List.cons.injEq]
      constructor
      · rintro rfl
        exact ⟨y, ⟨rfl, rfl⟩, h⟩
      · rintro ⟨x, ⟨rfl, rfl⟩, _⟩
        rfl
    · simp only [atom, h, List.cons.injEq]
      constructor
      · intro h'
        simp at h'
      · rintro ⟨x, ⟨rfl, rfl⟩, hx⟩
        exact absurd hx h

theorem starLoop_within {step : List Char → List (List Char)} {P : Char → Prop}
    (hstep : ∀ s t, t ∈ step s → ∃ m, s = m ++ t ∧ ∀ c ∈ m, P c) :
    ∀ f s t, t ∈ starLoop step f s → ∃ m, s = m ++ t ∧ ∀ c ∈ m, P c
  | 0, s, t, h => by
    simp only [starLoop, List.mem_singleton] at h
    exact ⟨[], by simp [h], by simp⟩
  | f + 1, s, t, h => by
    simp only [starLoop, List.mem_append, List.mem_flatMap, List.mem_filter,
      List.mem_singleton] at h
    rcases h with ⟨u, ⟨hu, _⟩, ht⟩ | h
    · obtain ⟨m1, rfl, h1⟩ := hstep s u hu
      obtain ⟨m2, rfl, h2⟩ := starLoop_within hstep f u t ht
      refine ⟨m1 ++ m2, by simp, ?_⟩
      intro c hc
      rcases List.mem_append.mp hc with hc | hc
      · exact h1 c hc
      · exact h2 c hc
    · exact ⟨[], by simp [h], by simp⟩

theorem lazyLoop_within {step : List Char → List (List Char)} {P : Char → Prop}
    (hstep : ∀ s t, t ∈ step s → ∃ m, s = m ++ t ∧ ∀ c ∈ m, P c) :
    ∀ f s t, t ∈ lazyLoop step f s → ∃ m, s = m ++ t ∧ ∀ c ∈ m, P c
  | 0, s, t, h => by
    simp only [lazyLoop, List.mem_singleton] at h
    exact ⟨[], by simp [h], by simp⟩
  | f + 1, s, t, h => by
    simp only [lazyLoop, List.mem_cons, List.mem_flatMap, List.mem_filter] at h
    rcases h with h | ⟨u, ⟨hu, _⟩, ht⟩
    · exact ⟨[], by simp [h], by simp⟩
    · obtain ⟨m1, rfl, h1⟩ := hstep s u hu
      obtain ⟨m2, rfl, h2⟩ := lazyLoop_within hstep f u t ht
      refine ⟨m1 ++ m2, by simp, ?_⟩
      intro c hc
      rcases List.mem_append.mp hc with hc | hc
      · exact h1 c hc
      · exact h2 c hc

/-- What a match consumes is a prefix of the input made of characters the atoms accept. -/
theorem run_within (ic : Bool) (n : Nat) (P : Char → Prop) :
    ∀ r : Regex, r.within ic P → ∀ s t, t ∈ r.run ic n s → ∃ m, s = m ++ t ∧ ∀ c ∈ m, P c := by
  intro r
  induction r with
  | eps =>
    intro _ s t h
    simp only [Regex.run, List.mem_singleton] at h
    exact ⟨[], by simp [h], by simp⟩
  | chr c =>
    intro hw s t h
    obtain ⟨x, rfl, hx⟩ := mem_atom.mp h
    exact ⟨[x], rfl, by simpa using hw x hx⟩
  | anyOf cs =>
    intro hw s t h
    obtain ⟨x, rfl, hx⟩ := mem_atom.mp h
    exact ⟨[x], rfl, by simpa using hw x hx⟩
  | digit =>
    intro hw s t h
    obtain ⟨x, rfl, hx⟩ := mem_atom.mp h
    exact ⟨[x], rfl, by simpa using hw x hx⟩
  | space =>
    intro hw s t h
    obtain ⟨x, rfl, hx⟩ := mem_atom.mp h
    exact ⟨[x], rfl, by simpa using hw x hx⟩
  | dot =>
    intro hw s t h
    obtain ⟨x, rfl, hx⟩ := mem_atom.mp h
    exact ⟨[x], rfl, by simpa using hw x (by simpa using hx)⟩
  | bol =>
    intro _ s t h
    simp only [Regex.run] at h
    split at h
    · exact ⟨[], by simp [List.mem_singleton.mp h], by simp⟩
    · simp at h
  | eol =>
    intro _ s t h
    simp only [Regex.run] at h
    split at h
    · exact ⟨[], by simp [List.mem_singleton.mp h], by simp⟩
    · simp at h
  | seq a b iha ihb =>
    intro hw s t h
    simp only [Regex.run, List.mem_flatMap] at h
    obtain ⟨u, hu, ht⟩ := h
    obtain ⟨m1, rfl, h1⟩ := iha hw.1 s u hu
    obtain ⟨m2, rfl, h2⟩ := ihb hw.2 u t ht
    refine ⟨m1 ++ m2, by simp, ?_⟩
    intro c hc
    rcases List.mem_append.mp hc with hc | hc
    · exact h1 c hc
    · exact h2 c hc
  | alt a b iha ihb =>
    intro hw s t h
    simp only [Regex.run, List.mem_append] at h
    rcases h with h | h
    · exact iha hw.1 s t h
    · exact ihb hw.2 s t h
  | star a iha =>
    intro hw s t h
    exact starLoop_within (iha hw) _ s t h
  | lazyStar a iha =>
    intro hw s t h
    exact lazyLoop_within (iha hw) _ s t h
  | notAhead a _ =>
    intro _ s t h
    simp only [Regex.run] at h
    split at h
    · exact ⟨[], by simp [List.mem_singleton.mp h], by simp⟩
    · simp at h

theorem within_true (ic : Bool) : ∀ r : Regex, r.within ic (fun _ => True) := by
  intro r
  induction r <;> simp_all [Regex.within]

/-- What is left after a match is a suffix of the input. -/
theorem run_suffix {ic : Bool} {n : Nat} {r : Regex} {s t : List Char}
    (h : t ∈ r.run ic n s) : ∃ m, s = m ++ t := by
  obtain ⟨m, hm, _⟩ := run_within ic n (fun _ => True) r (within_true ic r) s t h
  exact ⟨m, hm⟩

theorem run_length_le {ic : Bool} {n : Nat} {r : Regex} {s t : List Char}
    (h : t ∈ r.run ic n s) : t.length ≤ s.length := by
  obtain ⟨m, rfl⟩ := run_suffix h
  simp

/-- A pattern with a mandatory atom consumes at least one character. -/
theorem run_consuming (ic : Bool) (n : Nat) :
    ∀ r : Regex, r.consuming = true → ∀ s t, t ∈ r.run ic n s → t.length < s.length := by
  intro r
  induction r with
  | chr c =>
    intro _ s t h
    obtain ⟨x, rfl, _⟩ := mem_atom.mp h
    simp
  | anyOf cs =>
    intro _ s t h
    obtain ⟨x, rfl, _⟩ := mem_atom.mp h
    simp
  | digit =>
    intro _ s t h
    obtain ⟨x, rfl, _⟩ := mem_atom.mp h
    simp
  | space =>
    intro _ s t h
    obtain ⟨x, rfl, _⟩ := mem_atom.mp h
    simp
  | dot =>
    intro _ s t h
    obtain ⟨x, rfl, _⟩ := mem_atom.mp h
    simp
  | seq a b iha ihb =>
    intro hc s t h
    simp only [Regex.run, List.mem_flatMap] at h
    obtain ⟨u, hu, ht⟩ := h
    have h1 := run_length_le hu
    have h2 := run_length_le ht
    simp only [Regex.consuming, Bool.or_eq_true] at hc
    rcases hc with hc | hc
    · have := iha hc s u hu
      omega
    · have := ihb hc u t ht
      omega
  | alt a b iha ihb =>
    intro hc s t h
    simp only [Regex.consuming, Bool.and_eq_true] at hc
    simp only [Regex.run, List.mem_append] at h
    rcases h with h | h
    · exact iha hc.1 s t h
    · exact ihb hc.2 s t h
  | eps => intro hc; simp [Regex.consuming] at hc
  | bol => intro hc; simp [Regex.consuming] at hc
  | eol => intro hc; simp [Regex.consuming] at hc
  | star a _ => intro hc; simp [Regex.consuming] at hc
  | lazyStar a _ => intro hc; simp [Regex.consuming] at hc
  | notAhead a _ => intro hc; simp [Regex.consuming] at hc

/-- The three parts returned by `search` make up the input, and the last part is a result of
the matcher on the other two. -/
theorem search_spec (ic : Bool) (n : Nat) (r : Regex) :
    ∀ s pre m t, search ic n r s = some (pre, m, t) →
      s = pre ++ m ++ t ∧ t ∈ r.run ic n (m ++ t)
  | [], pre, m, t, h => by
    simp only [search] at h
    split at h
    · rename_i u us hrun
      simp only [Option.some.injEq, Prod.mk.injEq] at h
      obtain ⟨rfl, rfl, rfl⟩ := h
      have hu : u ∈ r.run ic n [] := by rw [hrun]; exact List.mem_cons_self _ _
      obtain ⟨m, hm⟩ := run_suffix hu
      have : u = [] := by
        have := congrArg List.length hm
        simp at this
        exact List.eq_nil_of_length_eq_zero (by omega)
      subst this
      exact ⟨rfl, hu⟩
    · simp at h
  | c :: cs, pre, m, t, h => by
    simp only [search] at h
    split at h
    · rename_i u us hrun
      simp only [Option.some.injEq, Prod.mk.injEq] at h
      obtain ⟨rfl, rfl, rfl⟩ := h
      have hu : u ∈ r.run ic n (c :: cs) := by rw [hrun]; exact List.mem_cons_self _ _
      obtain ⟨m, hm⟩ := run_suffix hu
      have htake : List.take ((c :: cs).length - u.length) (c :: cs) = m := by
        rw [hm]
        simp
      rw [htake]
      refine ⟨by simpa using hm, ?_⟩
      rw [← hm]
      exact hu
    · cases hs : search ic n r cs with
      | none => simp [hs] at h
      | some x =>
        obtain ⟨p1, m1, t1⟩ := x
        simp only [hs, Option.map_some', Option.some.injEq, Prod.mk.injEq] at h
        obtain ⟨rfl, rfl, rfl⟩ := h
        obtain ⟨h1, h2⟩ := search_spec ic n r cs p1 m1 t1 hs
        exact ⟨by simp [h1], h2⟩

theorem mem_run_seq {ic : Bool} {n : Nat} {a b : Regex} {s t : List Char} :
    t ∈ (Regex.seq a b).run ic n s ↔ ∃ u, u ∈ a.run ic n s ∧ t ∈ b.run ic n u := by
  simp only [Regex.run, List.mem_flatMap]

theorem mem_run_alt {ic : Bool} {n : Nat} {a b : Regex} {s t : List Char} :
    t ∈ (Regex.alt a b).run ic n s ↔ t ∈ a.run ic n s ∨ t ∈ b.run ic n s := by
  simp only [Regex.run, List.mem_append]

theorem mem_run_eol {ic : Bool} {n : Nat} {s t : List Char} :
    t ∈ Regex.eol.run ic n s ↔ s = [] ∧ t = [] := by
  cases s with
  | nil => simp [Regex.run]
  | cons x xs => simp [Regex.run]

theorem mem_run_star {ic : Bool} {n : Nat} {a : Regex} {s t : List Char} :
    t ∈ (Regex.star a).run ic n s ↔ t ∈ starLoop (a.run ic n) s.length s := by
  simp only [Regex.run]

/-! ## The iteration bounds suffice -/

theorem flatMap_filter_congr {f g : List Char → List (List Char)} {p : List Char → Bool} :
    ∀ l : List (List Char), (∀ t ∈ l, p t = true → f t = g t) →
      (l.filter p).flatMap f = (l.filter p).flatMap g
  | [], _ => rfl
  | t :: l, h => by
    have ih := flatMap_filter_congr l (fun u hu => h u (List.mem_cons_of_mem _ hu))
    by_cases hp : p t = true
    · simp [List.filter_cons, hp, h t (List.mem_cons_self _ _) hp, ih]
    · simp [List.filter_cons, hp, ih]

/-- Any bound of at least the input length gives the same greedy iteration. -/
theorem starLoop_fuel (step : List Char → List (List Char)) :
    ∀ (f g : Nat) (s : List Char), s.length ≤ f → s.length ≤ g →
      starLoop step f s = starLoop step g s
  | 0, 0, _, _, _ => rfl
  | 0, g + 1, s, hf, _ => by
    have hs : s = [] := List.eq_nil_of_length_eq_zero (by omega)
    subst hs
    simp [starLoop]
  | f + 1, 0, s, _, hg => by
    have hs : s = [] := List.eq_nil_of_length_eq_zero (by omega)
    subst hs
    simp [starLoop]
  | f + 1, g + 1, s, hf, hg => by
    rw [starLoop, starLoop]
    congr 1
    apply flatMap_filter_congr
    intro t _ ht
    have : t.length < s.length := by simpa using ht
    exact starLoop_fuel step f g t (by omega) (by omega)

/-- Any bound of at least the input length gives the same lazy iteration. -/
theorem lazyLoop_fuel (step : List Char → List (List Char)) :
    ∀ (f g : Nat) (s : List Char), s.length ≤ f → s.length ≤ g →
      lazyLoop step f s = lazyLoop step g s
  | 0, 0, _, _, _ => rfl
  | 0, g + 1, s, hf, _ => by
    have hs : s = [] := List.eq_nil_of_length_eq_zero (by omega)
    subst hs
    simp [lazyLoop]
  | f + 1, 0, s, _, hg => by
    have hs : s = [] := List.eq_nil_of_length_eq_zero (by omega)
    subst hs
    simp [lazyLoop]
  | f + 1, g + 1, s, hf, hg => by
    rw [lazyLoop, lazyLoop]
    congr 1
    apply flatMap_filter_congr
    intro t _ ht
    have : t.length < s.length := by simpa using ht
    exact lazyLoop_fuel step f g t (by omega) (by omega)

/-- Any bound above the input length gives the same global replacement. -/
theorem replaceLoop_fuel (ic : Bool) (n : Nat) (r : Regex) (repl : List Char) :
    ∀ (f g : Nat) (s : List Char), s.length < f → s.length < g →
      replaceLoop ic n r repl f s = replaceLoop ic n r repl g s
  | 0, _, _, hf, _ => absurd hf (by omega)
  | _ + 1, 0, _, _, hg => absurd hg (by omega)
  | f + 1, g + 1, s, hf, hg => by
    rw [replaceLoop, replaceLoop]
    cases hs : search ic n r s with
    | none => rfl
    | some x =>
      obtain ⟨pre, m, t⟩ := x
      have hlen := congrArg List.length (search_spec ic n r s pre m t hs).1
      simp only [List.length_append] at hlen
      cases m with
      | nil =>
        cases t with
        | nil => rfl
        | cons c cs =>
          simp only [List.length_cons] at hlen
          show pre ++ repl ++ c :: replaceLoop ic n r repl f cs =
            pre ++ repl ++ c :: replaceLoop ic n r repl g cs
          rw [replaceLoop_fuel ic n r repl f g cs (by omega) (by omega)]
      | cons y ys =>
        simp only [List.length_cons] at hlen
        show pre ++ repl ++ replaceLoop ic n r repl f t =
          pre ++ repl ++ replaceLoop ic n r repl g t
        rw [replaceLoop_fuel ic n r repl f g t (by omega) (by omega)]

/-! ## The fields extracted by `processNodeName` -/

theorem toNat_ofNat_small (n : Nat) (h : n < 55296) : (Char.ofNat n).toNat = n := by
  have hv : n.isValidChar := Or.inl h
  unfold Char.ofNat
  rw [dif_pos hv]
  simp [Char.ofNatAux, Char.toNat, UInt32.toNat]

theorem eqChar_false {p x : Char} : eqChar false p x = true ↔ p = x := by
  simp [eqChar, canonicalize]

theorem eqChar_letter {ic : Bool} {p x : Char} (hp : isLetter p = true)
    (h : eqChar ic p x = true) : isLetter x = true := by
  cases ic with
  | false =>
    rw [eqChar_false] at h
    exact h ▸ hp
  | true =>
    simp only [eqChar, canonicalize, if_true, beq_iff_eq, Char.toUpper] at h
    simp only [isLetter, Bool.or_eq_true, Bool.and_eq_true, decide_eq_true_eq] at hp ⊢
    by_cases hx : x.toNat ≥ 97 ∧ x.toNat ≤ 122
    · exact Or.inr hx
    · rw [if_neg hx] at h
      by_cases hp2 : p.toNat ≥ 97 ∧ p.toNat ≤ 122
      · rw [if_pos hp2] at h
        have := toNat_ofNat_small (p.toNat - 32) (by omega)
        rw [h] at this
        omega
      · rw [if_neg hp2] at h
        exact h ▸ hp

theorem within_of_atoms {ic : Bool} {P : Char → Prop} (okChar : Char → Bool)
    {okDigit okSpace okDot : Bool}
    (hchar : ∀ p x, okChar p = true → eqChar ic p x = true → P x)
    (hdigit : okDigit = true → ∀ x, isDigit x = true → P x)
    (hspace : okSpace = true → ∀ x, isSpace x = true → P x)
    (hdot : okDot = true → ∀ x, isLineTerminator x = false → P x) :
    ∀ r : Regex, r.atoms okChar okDigit okSpace okDot = true → r.within ic P := by
  intro r
  induction r with
  | eps => intro _; trivial
  | bol => intro _; trivial
  | eol => intro _; trivial
  | notAhead a _ => intro _; trivial
  | chr c => intro h x hx; exact hchar c x h hx
  | anyOf cs =>
    intro h x hx
    simp only [Regex.atoms, List.all_eq_true] at h
    simp only [List.any_eq_true] at hx
    obtain ⟨c, hc, hcx⟩ := hx
    exact hchar c x (h c hc) hcx
  | digit => intro h; exact hdigit h
  | space => intro h; exact hspace h
  | dot => intro h; exact hdot h
  | seq a b iha ihb =>
    intro h
    simp only [Regex.atoms, Bool.and_eq_true] at h
    exact ⟨iha h.1, ihb h.2⟩
  | alt a b iha ihb =>
    intro h
    simp only [Regex.atoms, Bool.and_eq_true] at h
    exact ⟨iha h.1, ihb h.2⟩
  | star a iha => intro h; exact iha h
  | lazyStar a iha => intro h; exact iha h

theorem specialTags_within :
    regexConfig.specialTags.source.within true (fun c => isLetter c = true) :=
  within_of_atoms isLetter (fun _ _ hp h => eqChar_letter hp h) (by simp) (by simp) (by simp) _
    (by decide : regexConfig.specialTags.source.atoms isLetter false false false = true)

theorem multiplier_within :
    regexConfig.multiplier.source.within false (fun c => isMultiplierChar c = true) := by
  refine within_of_atoms (fun c => c == '.' || c == 'x' || c == 'X' || c == '×')
    ?_ ?_ (by simp) (by simp) _
    (by decide : regexConfig.multiplier.source.atoms _ true false false = true)
  · intro p x hp h
    rw [eqChar_false] at h
    subst h
    simp only [Bool.or_eq_true] at hp
    simp only [isMultiplierChar, Bool.or_eq_true]
    tauto
  · intro _ x hx
    simp [isMultiplierChar, hx]

theorem number_within :
    regexConfig.number.source.within false (fun c => isNumberChar c = true) := by
  refine within_of_atoms (fun c => c == '.') ?_ ?_ ?_ (by simp) _
    (by decide : regexConfig.number.source.atoms _ true true false = true)
  · intro p x hp h
    rw [eqChar_false] at h
    subst h
    simp only [isNumberChar, Bool.or_eq_true]
    exact Or.inr hp
  · intro _ x hx
    simp [isNumberChar, hx]
  · intro _ x hx
    simp [isNumberChar, hx]

/-- The text returned by `strMatch` is a piece of the input that the pattern matched. -/
theorem strMatch_spec {s : String} {re : RegExp} {w : String} (h : strMatch s re = some w) :
    ∃ pre t, s.data = pre ++ w.data ++ t ∧
      t ∈ re.source.run re.ignoreCase s.data.length (w.data ++ t) := by
  unfold strMatch RegExp.exec at h
  cases hs : search re.ignoreCase s.data.length re.source s.data with
  | none =>
    rw [hs] at h
    exact absurd h (by simp)
  | some x =>
    obtain ⟨pre, m, t⟩ := x
    rw [hs] at h
    simp only [Option.map_some', Option.some.injEq] at h
    subst h
    exact ⟨pre, t, search_spec _ _ _ _ _ _ _ hs⟩

/-- A matched text is not empty and is made of characters the atoms accept. -/
theorem strMatch_chars (s : String) (re : RegExp) {w : String} {P : Char → Prop}
    (h : strMatch s re = some w) (hc : re.source.consuming = true)
    (hw : re.source.within re.ignoreCase P) :
    w ≠ "" ∧ ∀ c ∈ w.data, P c := by
  obtain ⟨pre, t, _, hrun⟩ := strMatch_spec h
  obtain ⟨m, hm, hP⟩ := run_within _ _ P _ hw _ _ hrun
  have hmw : m = w.data := List.append_cancel_right hm.symm
  subst hmw
  refine ⟨?_, hP⟩
  have hlt := run_consuming _ _ _ hc _ _ hrun
  intro hw0
  rw [hw0] at hlt
  simp at hlt

theorem specialTags_consuming : regexConfig.specialTags.source.consuming = true := by decide

theorem multiplier_consuming : regexConfig.multiplier.source.consuming = true := by decide

theorem specialTag_eq (name : String) :
    (processNodeName name).specialTag = strMatch (stripped name) regexConfig.specialTags := by
  simp only [processNodeName]

theorem multiplier_eq (name : String) :
    (processNodeName name).multiplier = strMatch (stripped name) regexConfig.multiplier := by
  simp only [processNodeName]

theorem region_eq (name : String) :
    (processNodeName name).region =
      (regexConfig.regions.find? (fun e => e.2.test (stripped name))).map (fun e => e.1) := by
  simp only [processNodeName]

theorem specialTag_chars {name w : String} (h : (processNodeName name).specialTag = some w) :
    w ≠ "" ∧ ∀ c ∈ w.data, isLetter c = true := by
  rw [specialTag_eq] at h
  exact strMatch_chars (stripped name) regexConfig.specialTags
    (P := fun c => isLetter c = true) h specialTags_consuming specialTags_within

theorem multiplier_chars {name w : String} (h : (processNodeName name).multiplier = some w) :
    w ≠ "" ∧ ∀ c ∈ w.data, isMultiplierChar c = true := by
  rw [multiplier_eq] at h
  exact strMatch_chars (stripped name) regexConfig.multiplier
    (P := fun c => isMultiplierChar c = true) h multiplier_consuming multiplier_within

theorem region_keys :
    regexConfig.regions.map (fun e => e.1) = ["HK", "SG", "JP", "US", "TW", "KR"] := rfl

theorem region_key {name R : String} (h : (processNodeName name).region = some R) :
    R ∈ ["HK", "SG", "JP", "US", "TW", "KR"] := by
  rw [region_eq, Option.map_eq_some'] at h
  obtain ⟨e, he, rfl⟩ := h
  have hmem := List.mem_of_find?_eq_some he
  rw [← region_keys]
  exact List.mem_map_of_mem _ hmem

/-! ## The recomposed name -/

theorem name_eq (name : String) :
    (processNodeName name).name =
      if " ".intercalate (pushIf (pushIf (pushIf [] (processNodeName name).region)
          (processNodeName name).specialTag) (processNodeName name).multiplier) ≠ "" then
        " ".intercalate (pushIf (pushIf (pushIf [] (processNodeName name).region)
          (processNodeName name).specialTag) (processNodeName name).multiplier)
      else stripped name := by
  rw [specialTag_eq, multiplier_eq, region_eq]
  simp only [processNodeName]

theorem pushIf_eq {xs : List String} {v : Option String} (h : ∀ w, v = some w → w ≠ "") :
    pushIf xs v = xs ++ v.toList := by
  cases v with
  | none => simp [pushIf]
  | some w => simp [pushIf, h w rfl]

theorem data_ne_nil {w : String} (h : w ≠ "") : w.data ≠ [] := by
  intro h0
  apply h
  cases w
  simp_all

theorem chain_of_no_space :
    ∀ d : List Char, ' ' ∉ d → d.Chain' (fun a b => ¬(a = ' ' ∧ b = ' '))
  | [], _ => List.chain'_nil
  | x :: xs, h => by
    rw [List.chain'_cons']
    refine ⟨?_, chain_of_no_space xs (fun hx => h (List.mem_cons_of_mem _ hx))⟩
    intro y _ hh
    exact h (hh.1 ▸ List.mem_cons_self _ _)

theorem tidy_field {d : List Char} (h0 : d ≠ []) (h : ' ' ∉ d) : Tidy d := by
  refine ⟨h0, ?_, ?_, chain_of_no_space d h⟩
  · intro hh
    exact h (List.mem_of_mem_head? hh)
  · intro hh
    exact h (List.mem_of_mem_getLast? hh)

theorem tidy_join {a b : List Char} (ha : Tidy a) (hb : Tidy b) : Tidy (a ++ ' ' :: b) := by
  obtain ⟨a0, a1, a2, a3⟩ := ha
  obtain ⟨b0, b1, b2, b3⟩ := hb
  refine ⟨by simp, ?_, ?_, ?_⟩
  · rw [List.head?_append_of_ne_nil _ a0]
    exact a1
  · rw [List.getLast?_append_of_ne_nil _ (by simp)]
    cases b with
    | nil => exact absurd rfl b0
    | cons y ys =>
      rw [List.getLast?_cons_cons]
      exact b2
  · rw [List.chain'_append]
    refine ⟨a3, ?_, ?_⟩
    · rw [List.chain'_cons']
      refine ⟨?_, b3⟩
      intro y hy hh
      exact b1 (hh.2 ▸ hy)
    · intro x hx y _ hh
      exact a2 (hh.1 ▸ hx)

theorem tidy_no_double {d : List Char} (h : Tidy d) : ¬ [' ', ' '] <:+: d := by
  intro hin
  have := List.Chain'.infix h.2.2.2 hin
  rw [List.chain'_pair] at this
  exact this ⟨rfl, rfl⟩

theorem key_chars {R : String} (h : R ∈ ["HK", "SG", "JP", "US", "TW", "KR"]) :
    R ≠ "" ∧ ∀ c ∈ R.data, isLetter c = true := by
  simp only [List.mem_cons, List.mem_singleton, List.not_mem_nil, or_false] at h
  rcases h with rfl | rfl | rfl | rfl | rfl | rfl <;> decide

theorem tidy_of_letters {w : String} (h : w ≠ "" ∧ ∀ c ∈ w.data, isLetter c = true) :
    Tidy w.data :=
  tidy_field (data_ne_nil h.1) (fun hs => absurd (h.2 _ hs) (by decide))

theorem tidy_of_multiplier {w : String}
    (h : w ≠ "" ∧ ∀ c ∈ w.data, isMultiplierChar c = true) : Tidy w.data :=
  tidy_field (data_ne_nil h.1) (fun hs => absurd (h.2 _ hs) (by decide))

/-- The fields `processNodeName` detects are pushed as they are, and each is a tidy text. -/
theorem newName_eq (name : String) :
    pushIf (pushIf (pushIf [] (processNodeName name).region)
        (processNodeName name).specialTag) (processNodeName name).multiplier =
      (processNodeName name).region.toList ++ (processNodeName name).specialTag.toList ++
        (processNodeName name).multiplier.toList := by
  rw [pushIf_eq (fun w h => (multiplier_chars h).1), pushIf_eq (fun w h => (specialTag_chars h).1),
    pushIf_eq (fun w h => (key_chars (region_key h)).1), List.nil_append]

theorem intercalate_go_tidy :
    ∀ (rest : List String) (acc : String), Tidy acc.data → (∀ f ∈ rest, Tidy f.data) →
      Tidy (String.intercalate.go acc " " rest).data
  | [], acc, h, _ => by simpa [String.intercalate.go] using h
  | a :: rest, acc, h, hr => by
    rw [String.intercalate.go]
    apply intercalate_go_tidy rest
    · simpa using tidy_join h (hr a (List.mem_cons_self _ _))
    · intro f hf
      exact hr f (List.mem_cons_of_mem _ hf)

theorem intercalate_tidy (fs : List String) (h0 : fs ≠ []) (h : ∀ f ∈ fs, Tidy f.data) :
    Tidy (" ".intercalate fs).data := by
  cases fs with
  | nil => exact absurd rfl h0
  | cons a rest =>
    rw [String.intercalate]
    exact intercalate_go_tidy rest a (h a (List.mem_cons_self _ _))
      (fun f hf => h f (List.mem_cons_of_mem _ hf))

/-! ## Node clean-up: filtering -/

theorem cleanNodes_eq_map_filter {ω : Type} (proxies : List (ProxyNode ω)) :
    cleanNodes proxies =
      (proxies.filter (fun p => !regexConfig.removeNodes.test p.name)).map
        (fun p => { p with name := (processNodeName p.name).name }) := by
  induction proxies with
  | nil => rfl
  | cons p ps ih =>
    unfold cleanNodes at ih ⊢
    by_cases h : regexConfig.removeNodes.test p.name = true
    · simp [List.filterMap_cons, cleanNode, h, ih]
    · simp [List.filterMap_cons, cleanNode, h, ih]

theorem lookup_map_setKey {ω : Type} (k : String) (v : Value ω) :
    ∀ o : Obj ω, (o.any (fun e => e.1 == k)) = true →
      List.lookup k (o.map (fun e => if e.1 == k then (k, v) else e)) = some v
  | [], h => by simp at h
  | e :: es, h => by
    by_cases hk : e.1 = k
    · have h1 : (e.1 == k) = true := by rw [beq_iff_eq]; exact hk
      rw [List.map_cons, h1, if_pos rfl, List.lookup_cons, beq_self_eq_true]
    · have h1 : (e.1 == k) = false := by rw [beq_eq_false_iff_ne]; exact hk
      have h2 : (k == e.1) = false := by rw [beq_eq_false_iff_ne]; exact fun h' => hk h'.symm
      rw [List.any_cons, h1, Bool.false_or] at h
      rw [List.map_cons, h1, if_neg (by simp), List.lookup_cons, h2]
      exact lookup_map_setKey k v es h

theorem lookup_append_setKey {ω : Type} (k : String) (v : Value ω) :
    ∀ o : Obj ω, (o.any (fun e => e.1 == k)) = false →
      List.lookup k (o ++ [(k, v)]) = some v
  | [], _ => by rw [List.nil_append, List.lookup_cons, beq_self_eq_true]
  | e :: es, h => by
    rw [List.any_cons, Bool.or_eq_false_iff] at h
    have h2 : (k == e.1) = false := by
      rw [beq_eq_false_iff_ne]
      intro h'
      have := h.1
      rw [beq_eq_false_iff_ne] at this
      exact this h'.symm
    rw [List.cons_append, List.lookup_cons, h2]
    exact lookup_append_setKey k v es h.2

theorem lookup_setKey {ω : Type} (o : Obj ω) (k : String) (v : Value ω) :
    List.lookup k (setKey o k v) = some v := by
  unfold setKey
  by_cases h : (o.any (fun e => e.1 == k)) = true
  · rw [if_pos h]
    exact lookup_map_setKey k v o h
  · rw [if_neg h]
    exact lookup_append_setKey k v o (Bool.eq_false_iff.mpr h)

set_option maxHeartbeats 2000000 in
theorem groups_by_region (names : List String) (hk sg jp us tw kr : RegExp)
    (htbl : regexConfig.regions =
      [("HK", hk), ("SG", sg), ("JP", jp), ("US", us), ("TW", tw), ("KR", kr)])
    (e : String × RegExp) (he : e ∈ regexConfig.regions) :
    ((groups names).filter (fun g => g.name == e.1 ++ "-自动选择")).map (fun g => g.proxies) =
        (if names.filter (fun name => e.2.test name) = [] then []
         else [names.filter (fun name => e.2.test name)]) ∧
    ((groups names).filter (fun g => g.name == e.1 ++ "-手动选择")).map (fun g => g.proxies) =
        (if names.filter (fun name => e.2.test name) = [] then []
         else ["DIRECT" :: names.filter (fun name => e.2.test name)]) := by
  simp only [groups, autoProxyGroups, manualProxyGroups, List.filter_append, List.filter_filter,
    List.filter_map, List.map_append, List.map_map]
  rw [htbl] at he ⊢
  simp only [List.mem_cons, List.mem_singleton, List.not_mem_nil, or_false] at he
  rcases he with rfl | rfl | rfl | rfl | rfl | rfl <;>
  · constructor <;> split <;> rename_i h <;> simp at h <;>
      simp [List.filter_cons, proxyName, h, List.length_pos] <;> exact h

theorem detected_fields (name : String) :
    ∀ f ∈ (processNodeName name).region.toList ++ (processNodeName name).specialTag.toList ++
        (processNodeName name).multiplier.toList,
      (f ≠ "" ∧ ' ' ∉ f.data) ∧ Tidy f.data := by
  intro f hf
  simp only [List.mem_append, Option.mem_toList, Option.mem_def] at hf
  rcases hf with (hf | hf) | hf
  · have h := key_chars (region_key hf)
    exact ⟨⟨h.1, fun hs => absurd (h.2 _ hs) (by decide)⟩, tidy_of_letters h⟩
  · have h := specialTag_chars hf
    exact ⟨⟨h.1, fun hs => absurd (h.2 _ hs) (by decide)⟩, tidy_of_letters h⟩
  · have h := multiplier_chars hf
    exact ⟨⟨h.1, fun hs => absurd (h.2 _ hs) (by decide)⟩, tidy_of_multiplier h⟩

/-- When at least one field is detected, the returned name is the join of the fields. -/
theorem name_of_fields (name : String)
    (h : (processNodeName name).region.toList ++ (processNodeName name).specialTag.toList ++
        (processNodeName name).multiplier.toList ≠ []) :
    (processNodeName name).name =
      " ".intercalate ((processNodeName name).region.toList ++
        (processNodeName name).specialTag.toList ++ (processNodeName name).multiplier.toList) ∧
    Tidy (processNodeName name).name.data := by
  have ht := intercalate_tidy _ h (fun f hf => (detected_fields name f hf).2)
  have hne : " ".intercalate ((processNodeName name).region.toList ++
      (processNodeName name).specialTag.toList ++ (processNodeName name).multiplier.toList) ≠ "" := by
    intro h0
    rw [h0] at ht
    exact ht.1 rfl
  have hn := name_eq name
  rw [newName_eq, if_pos hne] at hn
  exact ⟨hn, hn ▸ ht⟩

/-! ## The trailing ordinal -/

theorem digits12_last {ic : Bool} {n : Nat} {s t : List Char}
    (h : t ∈ regexConfig.digits12.run ic n s) :
    ∃ m c, s = m ++ c :: t ∧ isDigit c = true := by
  simp only [regexConfig.digits12, opt, Regex.run, List.mem_flatMap, List.mem_append,
    List.mem_singleton] at h
  obtain ⟨u, hu, ht⟩ := h
  obtain ⟨x, rfl, hx⟩ := mem_atom.mp hu
  rcases ht with ht | rfl
  · obtain ⟨y, rfl, hy⟩ := mem_atom.mp ht
    exact ⟨[x], y, rfl, hy⟩
  · exact ⟨[], x, rfl, hx⟩

theorem number_source :
    regexConfig.number.source =
      .seq (.star .space)
        (.seq (.alt regexConfig.digits12
          (.seq regexConfig.digits12 (.seq (.chr '.') regexConfig.digits12)))
        (.seq (.star .space) .eol)) := rfl

/-- A match of `regexConfig.number` reaches the end of the input and ends in a digit or in
white space. -/
theorem number_match {n : Nat} {s t : List Char}
    (h : t ∈ regexConfig.number.source.run false n s) :
    t = [] ∧ ∃ c, s.getLast? = some c ∧ (isSpace c = true ∨ isDigit c = true) := by
  rw [number_source, mem_run_seq] at h
  obtain ⟨u1, h1, h⟩ := h
  rw [mem_run_seq] at h
  obtain ⟨u2, hd, h⟩ := h
  rw [mem_run_seq] at h
  obtain ⟨u3, hw, h⟩ := h
  rw [mem_run_eol] at h
  obtain ⟨rfl, rfl⟩ := h
  refine ⟨rfl, ?_⟩
  obtain ⟨w, rfl, hsp⟩ := run_within false n (fun c => isSpace c = true) (.star .space)
    (fun _ hx => hx) _ _ hw
  obtain ⟨m0, rfl⟩ := run_suffix h1
  have hlast : ∃ m c, u1 = m ++ c :: (w ++ []) ∧ isDigit c = true := by
    rw [mem_run_alt] at hd
    rcases hd with hd | hd
    · exact digits12_last hd
    · rw [mem_run_seq] at hd
      obtain ⟨v1, hv1, hd⟩ := hd
      rw [mem_run_seq] at hd
      obtain ⟨v2, hv2, hd⟩ := hd
      obtain ⟨m, c, rfl, hc⟩ := digits12_last hd
      obtain ⟨k1, rfl⟩ := run_suffix hv2
      obtain ⟨k2, rfl⟩ := run_suffix hv1
      exact ⟨k2 ++ (k1 ++ m), c, by simp, hc⟩
  obtain ⟨m, c, rfl, hc⟩ := hlast
  rcases List.eq_nil_or_concat w with rfl | ⟨w', x, rfl⟩
  · refine ⟨c, ?_, Or.inr hc⟩
    have : m0 ++ (m ++ c :: ([] ++ [])) = (m0 ++ m) ++ [c] := by simp
    rw [this, List.getLast?_concat]
  · refine ⟨x, ?_, Or.inl (hsp x (by simp))⟩
    have : m0 ++ (m ++ c :: (w'.concat x ++ [])) = (m0 ++ (m ++ c :: w')) ++ [x] := by simp
    rw [this, List.getLast?_concat]

/-- A name that `regexConfig.number` matches ends in a digit or in white space. -/
theorem number_test {s : String} (h : regexConfig.number.test s = true) :
    ∃ c, s.data.getLast? = some c ∧ (isSpace c = true ∨ isDigit c = true) := by
  unfold RegExp.test RegExp.exec at h
  cases hs : search regexConfig.number.ignoreCase s.data.length regexConfig.number.source
      s.data with
  | none =>
    rw [hs] at h
    exact absurd h (by simp)
  | some x =>
    obtain ⟨pre, m, t⟩ := x
    obtain ⟨h1, h2⟩ := search_spec _ _ _ _ _ _ _ hs
    obtain ⟨rfl, c, hc, hcl⟩ := number_match h2
    refine ⟨c, ?_, hcl⟩
    rw [h1, List.append_assoc, List.getLast?_append, hc]
    rfl

theorem letter_not_number {c : Char} (h : isLetter c = true) :
    isSpace c = false ∧ isDigit c = false := by
  simp only [isLetter, Bool.or_eq_true, Bool.and_eq_true, decide_eq_true_eq] at h
  constructor
  · simp only [isSpace, Bool.or_eq_false_iff, beq_eq_false_iff_ne, Bool.and_eq_false_iff,
      decide_eq_false_iff_not, ne_eq]
    omega
  · simp only [isDigit, Bool.and_eq_false_iff, decide_eq_false_iff_not]
    omega

theorem multiplier_char_not_space {c : Char} (h : isMultiplierChar c = true)
    (hd : isDigit c = false) : isSpace c = false := by
  simp only [isMultiplierChar, hd, Bool.false_or, Bool.or_eq_true, beq_iff_eq] at h
  rcases h with ((rfl | rfl) | rfl) | rfl <;> decide

theorem intercalate_go_last :
    ∀ (rest : List String) (acc l : String), (∀ f ∈ rest, f.data ≠ []) →
      (acc :: rest).getLast? = some l →
      (String.intercalate.go acc " " rest).data.getLast? = l.data.getLast?
  | [], acc, l, _, hl => by
    simp only [List.getLast?_singleton, Option.some.injEq] at hl
    rw [String.intercalate.go, hl]
  | a :: rest, acc, l, hr, hl => by
    rw [String.intercalate.go]
    rw [List.getLast?_cons_cons] at hl
    cases rest with
    | nil =>
      simp only [List.getLast?_singleton, Option.some.injEq] at hl
      subst hl
      rw [String.intercalate.go]
      simp only [String.data_append, List.getLast?_append]
      have := hr a (List.mem_cons_self _ _)
      cases hd : a.data.getLast? with
      | none => exact absurd (List.getLast?_eq_none_iff.mp hd) this
      | some c => rfl
    | cons b rest =>
      apply intercalate_go_last (b :: rest) _ l (fun f hf => hr f (List.mem_cons_of_mem _ hf))
      rw [List.getLast?_cons_cons]
      rw [List.getLast?_cons_cons] at hl
      exact hl

theorem intercalate_last {fs : List String} {l : String} (hne : ∀ f ∈ fs, f.data ≠ [])
    (hl : fs.getLast? = some l) :
    (" ".intercalate fs).data.getLast? = l.data.getLast? := by
  cases fs with
  | nil => simp at hl
  | cons a rest =>
    rw [String.intercalate]
    exact intercalate_go_last rest a l (fun f hf => hne f (List.mem_cons_of_mem _ hf)) hl

/-- The last character of a name recomposed from fields is neither a digit nor white space,
unless it is the last character of the multiplier. -/
theorem name_last_of_fields (name : String) (c : Char)
    (h : (processNodeName name).region.toList ++ (processNodeName name).specialTag.toList ++
        (processNodeName name).multiplier.toList ≠ [])
    (hm : ∀ w, (processNodeName name).multiplier = some w →
      ∀ c, w.data.getLast? = some c → isDigit c = false)
    (hc : (processNodeName name).name.data.getLast? = some c) :
    isSpace c = false ∧ isDigit c = false := by
  obtain ⟨l, hl⟩ : ∃ l, ((processNodeName name).region.toList ++
      (processNodeName name).specialTag.toList ++
      (processNodeName name).multiplier.toList).getLast? = some l := by
    cases hx : ((processNodeName name).region.toList ++
      (processNodeName name).specialTag.toList ++
      (processNodeName name).multiplier.toList).getLast? with
    | none => exact absurd (List.getLast?_eq_none_iff.mp hx) h
    | some l => exact ⟨l, rfl⟩
  rw [(name_of_fields name h).1,
    intercalate_last (fun f hf => data_ne_nil (detected_fields name f hf).1.1) hl] at hc
  have hmem := List.mem_of_mem_getLast? hc
  cases hmu : (processNodeName name).multiplier with
  | some w =>
    rw [hmu] at hl
    simp only [Option.toList_some, List.getLast?_append, List.getLast?_singleton,
      Option.or, Option.some.injEq] at hl
    rw [← hl] at hc hmem
    have hd := hm w hmu c hc
    exact ⟨multiplier_char_not_space ((multiplier_chars hmu).2 c hmem) hd, hd⟩
  | none =>
    rw [hmu] at hl
    simp only [Option.toList_none, List.append_nil] at hl
    cases htg : (processNodeName name).specialTag with
    | some w =>
      rw [htg] at hl
      simp only [Option.toList_some, List.getLast?_append, List.getLast?_singleton,
        Option.or, Option.some.injEq] at hl
      rw [← hl] at hmem
      exact letter_not_number ((specialTag_chars htg).2 c hmem)
    | none =>
      rw [htg] at hl
      simp only [Option.toList_none, List.append_nil] at hl
      cases hrg : (processNodeName name).region with
      | some w =>
        rw [hrg] at hl
        simp only [Option.toList_some, List.getLast?_singleton, Option.some.injEq] at hl
        rw [← hl] at hmem
        exact letter_not_number ((key_chars (region_key hrg)).2 c hmem)
      | none =>
        rw [hrg] at hl
        simp at hl

/-- The search is leftmost: the pattern matches at none of the positions skipped. -/
theorem search_skipped (ic : Bool) (n : Nat) (r : Regex) :
    ∀ s pre m t, search ic n r s = some (pre, m, t) →
      ∀ p1 p2, pre = p1 ++ p2 → p2 ≠ [] → r.run ic n (p2 ++ m ++ t) = []
  | [], pre, m, t, h, p1, p2, hp, hp2 => by
    simp only [search] at h
    split at h
    · simp only [Option.some.injEq, Prod.mk.injEq] at h
      obtain ⟨rfl, -, -⟩ := h
      have := List.append_eq_nil.mp hp.symm
      exact absurd this.2 hp2
    · simp at h
  | c :: cs, pre, m, t, h, p1, p2, hp, hp2 => by
    simp only [search] at h
    split at h
    · simp only [Option.some.injEq, Prod.mk.injEq] at h
      obtain ⟨rfl, -, -⟩ := h
      have := List.append_eq_nil.mp hp.symm
      exact absurd this.2 hp2
    · rename_i hrun
      cases hs : search ic n r cs with
      | none => simp [hs] at h
      | some x =>
        obtain ⟨q, m1, t1⟩ := x
        simp only [hs, Option.map_some', Option.some.injEq, Prod.mk.injEq] at h
        obtain ⟨rfl, rfl, rfl⟩ := h
        cases p1 with
        | nil =>
          rw [List.nil_append] at hp
          rw [← hp, List.cons_append, List.cons_append,
            ← (search_spec ic n r cs q m1 t1 hs).1]
          exact hrun
        | cons d p1 =>
          rw [List.cons_append, List.cons.injEq] at hp
          exact search_skipped ic n r cs q m1 t1 hs p1 p2 hp.2 hp2

/-- White space before a match of `regexConfig.number` belongs to a match as well. -/
theorem number_extend {n : Nat} {c : Char} {s t : List Char} (hc : isSpace c = true)
    (h : t ∈ regexConfig.number.source.run false n s) :
    t ∈ regexConfig.number.source.run false n (c :: s) := by
  rw [number_source, mem_run_seq] at h ⊢
  obtain ⟨u, hu, ht⟩ := h
  refine ⟨u, ?_, ht⟩
  rw [mem_run_star] at hu ⊢
  rw [List.length_cons, starLoop, List.mem_append, List.mem_flatMap]
  refine Or.inl ⟨s, ?_, hu⟩
  rw [List.mem_filter]
  exact ⟨mem_atom.mpr ⟨c, rfl, hc⟩, by simp⟩

/-- What is left after the removal of the trailing ordinal does not end in white space, and
it is matched again only if it ends in a digit. -/
theorem strip_number (s : String)
    (hd : ∀ pre m t, regexConfig.number.exec s = some (pre, m, t) →
      ∀ c, pre.getLast? = some c → isDigit c = false) :
    regexConfig.number.test (strReplace s regexConfig.number "") = false := by
  rw [Bool.eq_false_iff]
  intro htest
  cases hs : regexConfig.number.exec s with
  | none =>
    have : strReplace s regexConfig.number "" = s := by
      simp only [strReplace, hs]
      rfl
    rw [this, RegExp.test, hs] at htest
    exact absurd htest (by simp)
  | some x =>
    obtain ⟨pre, m, t⟩ := x
    have hspec := search_spec _ _ _ _ _ _ _ hs
    obtain ⟨rfl, -⟩ := number_match hspec.2
    have : strReplace s regexConfig.number "" = String.mk pre := by
      simp only [strReplace, hs]
      simp [regexConfig.number]
    rw [this] at htest
    obtain ⟨c, hc, hcl⟩ := number_test htest
    rcases hcl with hsp | hdig
    · obtain ⟨p1, rfl⟩ : ∃ p1, pre = p1 ++ [c] := by
        rcases List.eq_nil_or_concat pre with rfl | ⟨p1, x, rfl⟩
        · simp at hc
        · rw [List.concat_eq_append] at hc ⊢
          rw [List.getLast?_concat, Option.some.injEq] at hc
          exact ⟨p1, by rw [hc]⟩
      have hskip := search_skipped _ _ _ _ _ _ _ hs p1 [c] rfl (by simp)
      have hext := number_extend hsp hspec.2
      rw [List.singleton_append, List.cons_append,
        show regexConfig.number.ignoreCase = false from rfl] at hskip
      rw [hskip] at hext
      exact absurd hext (by simp)
    · have := hd pre m [] hs c hc
      rw [hdig] at this
      exact absurd this (by simp)

/-- With no field detected, the returned name is the stripped name. -/
theorem name_of_none (name : String)
    (hr : (processNodeName name).region = none)
    (ht : (processNodeName name).specialTag = none)
    (hm : (processNodeName name).multiplier = none) :
    (processNodeName name).name = strReplace (substituted name) regexConfig.number "" := by
  rw [name_eq, hr, ht, hm]
  simp [pushIf, stripped, String.intercalate]

theorem mem_cleanNodes {ω : Type} {proxies : List (ProxyNode ω)} {q : ProxyNode ω} :
    q ∈ cleanNodes proxies ↔
      ∃ p ∈ proxies, regexConfig.removeNodes.test p.name = false ∧
        q = { p with name := (processNodeName p.name).name } := by
  rw [cleanNodes_eq_map_filter]
  simp only [List.mem_map, List.mem_filter, Bool.not_eq_true']
  constructor
  · rintro ⟨p, ⟨hp, hn⟩, rfl⟩
    exact ⟨p, hp, hn, rfl⟩
  · rintro ⟨p, hp, hn, rfl⟩
    exact ⟨p, ⟨hp, hn⟩, rfl⟩

theorem name_of_mem_cleanNodes {ω : Type} {proxies : List (ProxyNode ω)} {q : ProxyNode ω}
    (hq : q ∈ cleanNodes proxies) :
    ∃ p ∈ proxies, regexConfig.removeNodes.test p.name = false ∧
      q.name = (processNodeName p.name).name ∧ q.fields = p.fields := by
  obtain ⟨p, hp, hn, rfl⟩ := mem_cleanNodes.mp hq
  refine ⟨p, hp, hn, ?_, ?_⟩
  · generalize (processNodeName p.name).name = x
    rfl
  · generalize (processNodeName p.name).name = x
    rfl

/-! ## Normalising a normalised name -/

theorem starLoop_of_nil {step : List Char → List (List Char)} {s : List Char}
    (h : step s = []) : ∀ f, starLoop step f s = [s]
  | 0 => rfl
  | f + 1 => by simp [starLoop, h]

theorem atom_of_false {p : Char → Bool} {c : Char} {s : List Char} (h : p c = false) :
    atom p (c :: s) = [] := by
  simp [atom, h]

/-- When `mayStart` answers `false`, the pattern has no match at the start of the input. -/
theorem mayStart_sound (ic : Bool) (n : Nat) (rest : List Char) :
    ∀ r p, mayStart ic r p = false → r.run ic n (p ++ rest) = [] := by
  intro r p
  induction r, p using mayStart.induct ic with
  | case1 x c p =>
    intro h
    rw [mayStart] at h
    exact atom_of_false h
  | case2 cs c p =>
    intro h
    rw [mayStart] at h
    exact atom_of_false h
  | case3 c p =>
    intro h
    rw [mayStart] at h
    exact atom_of_false h
  | case4 c p =>
    intro h
    rw [mayStart] at h
    exact atom_of_false h
  | case5 c p =>
    intro h
    rw [mayStart] at h
    exact atom_of_false h
  | case6 x b c p ih =>
    intro h
    rw [mayStart, Bool.and_eq_false_iff] at h
    rw [Regex.run, Regex.run, List.cons_append]
    rcases h with h | h
    · rw [atom_of_false h]
      rfl
    · simp only [atom]
      split
      · simp [ih h]
      · rfl
  | case7 a b p iha ihb =>
    intro h
    rw [mayStart, Bool.or_eq_false_iff] at h
    rw [Regex.run, Regex.run, starLoop_of_nil (iha h.1)]
    simp [ihb h.2]
  | case8 a b p h1 h2 iha =>
    intro h
    rw [mayStart] at h
    · rw [Regex.run, iha h]
      rfl
    · exact h2
    · exact h1
  | case9 a b p iha ihb =>
    intro h
    rw [mayStart, Bool.or_eq_false_iff] at h
    rw [Regex.run, iha h.1, ihb h.2]
    rfl
  | case10 t x h1 h2 h3 h4 h5 h6 h7 h8 h9 =>
    intro h
    rw [mayStart] at h
    · exact absurd h (by simp)
    all_goals assumption

theorem search_cons_of_nil {ic : Bool} {n : Nat} {r : Regex} {c : Char} {cs : List Char}
    (h : r.run ic n (c :: cs) = []) :
    search ic n r (c :: cs) = (search ic n r cs).map (fun x => (c :: x.1, x.2.1, x.2.2)) := by
  rw [search, h]

theorem replaceLoop_cons_of_nil {ic : Bool} {n : Nat} {r : Regex} {repl : List Char}
    {c : Char} {cs : List Char} (h : r.run ic n (c :: cs) = []) (f : Nat) :
    replaceLoop ic n r repl (f + 1) (c :: cs) = c :: replaceLoop ic n r repl (f + 1) cs := by
  rw [replaceLoop, replaceLoop, search_cons_of_nil h]
  cases hs : search ic n r cs with
  | none => rfl
  | some x =>
    obtain ⟨pre, m, t⟩ := x
    cases m with
    | nil =>
      cases t with
      | nil => rfl
      | cons d ds => rfl
    | cons y ys => rfl

theorem mem_replaceLoop {ic : Bool} {n : Nat} {r : Regex} {repl : List Char} {z : Char} :
    ∀ f s, z ∈ replaceLoop ic n r repl f s → z ∈ s ∨ z ∈ repl
  | 0, s, h => Or.inl h
  | f + 1, s, h => by
    rw [replaceLoop] at h
    cases hs : search ic n r s with
    | none =>
      rw [hs] at h
      exact Or.inl h
    | some x =>
      obtain ⟨pre, m, t⟩ := x
      rw [hs] at h
      have hspec := (search_spec ic n r s pre m t hs).1
      cases m with
      | nil =>
        cases t with
        | nil =>
          simp only [List.mem_append] at h
          rcases h with h | h
          · exact Or.inl (by rw [hspec]; simp [h])
          · exact Or.inr h
        | cons d ds =>
          simp only [List.mem_append, List.mem_cons] at h
          rcases h with (h | h) | h | h
          · exact Or.inl (by rw [hspec]; simp [h])
          · exact Or.inr h
          · exact Or.inl (by rw [hspec]; simp [h])
          · rcases mem_replaceLoop f ds h with h | h
            · exact Or.inl (by rw [hspec]; simp [h])
            · exact Or.inr h
      | cons y ys =>
        simp only [List.mem_append] at h
        rcases h with (h | h) | h
        · exact Or.inl (by rw [hspec]; simp [h])
        · exact Or.inr h
        · rcases mem_replaceLoop f t h with h | h
          · exact Or.inl (by rw [hspec]; simp [h])
          · exact Or.inr h

/-- A quiet global substitution leaves the key and the space after it in place. -/
theorem strReplace_keeps (re : RegExp) (repl : String) (a b : Char) (hg : re.global = true)
    (hq : QuietAt re.ignoreCase re.source a b) (hz : flagC ∉ repl.data)
    (s : String) (r : List Char) (hs : s.data = a :: b :: ' ' :: r) (hr : flagC ∉ r) :
    ∃ r2, (strReplace s re repl).data = a :: b :: ' ' :: r2 ∧ flagC ∉ r2 := by
  obtain ⟨h1, h2, h3⟩ := hq s.data.length r hr
  refine ⟨replaceLoop re.ignoreCase s.data.length re.source repl.data (s.data.length + 1) r,
    ?_, ?_⟩
  · rw [strReplace, if_pos hg]
    show replaceLoop re.ignoreCase s.data.length re.source repl.data (s.data.length + 1) s.data
      = _
    rw [hs] at h1 h2 h3 ⊢
    rw [replaceLoop_cons_of_nil h1, replaceLoop_cons_of_nil h2, replaceLoop_cons_of_nil h3]
  · intro hmem
    rcases mem_replaceLoop _ _ hmem with h | h
    · exact hr h
    · exact hz h

theorem quiet_of_mayStart {ic : Bool} {src : Regex} {a b : Char}
    (h1 : mayStart ic src [a, b, ' '] = false) (h2 : mayStart ic src [b, ' '] = false)
    (h3 : mayStart ic src [' '] = false) : QuietAt ic src a b :=
  fun n r _ => ⟨mayStart_sound ic n r src _ h1, mayStart_sound ic n r src _ h2,
    mayStart_sound ic n r src _ h3⟩

theorem flag_lit : lit "🇨🇳" = .seq (.chr flagC) (.seq (.chr (Char.ofNat 0x1F1F3)) .eps) :=
  rfl

theorem flag_of_lit {n : Nat} {s t : List Char} (h : t ∈ (lit "🇨🇳").run false n s) :
    flagC ∈ s := by
  rw [flag_lit, mem_run_seq] at h
  obtain ⟨u, hu, -⟩ := h
  obtain ⟨x, rfl, hx⟩ := mem_atom.mp hu
  rw [eqChar_false] at hx
  rw [hx]
  exact List.mem_cons_self _ _

theorem mem_of_suffix {ic : Bool} {n : Nat} {r : Regex} {s t : List Char} {z : Char}
    (h : t ∈ r.run ic n s) (hz : z ∈ t) : z ∈ s := by
  obtain ⟨m, rfl⟩ := run_suffix h
  exact List.mem_append_right _ hz

/-- The Taiwan entry only matches where the flag occurs. -/
theorem taiwan_needs_flag {n : Nat} {s t : List Char}
    (h : t ∈ (Regex.alt
      (.seq regexConfig.taiwan (.seq (.lazyStar .dot) (lit "🇨🇳")))
      (.seq (lit "🇨🇳") (.seq (.lazyStar .dot) regexConfig.taiwan))).run false n s) :
    flagC ∈ s := by
  rw [mem_run_alt] at h
  rcases h with h | h
  · rw [mem_run_seq] at h
    obtain ⟨u1, h1, h⟩ := h
    rw [mem_run_seq] at h
    obtain ⟨u2, h2, h⟩ := h
    exact mem_of_suffix h1 (mem_of_suffix h2 (flag_of_lit h))
  · rw [mem_run_seq] at h
    obtain ⟨u1, h1, -⟩ := h
    exact flag_of_lit h1

theorem taiwan_nil {n : Nat} {s : List Char} (h : flagC ∉ s) :
    (Regex.alt
      (.seq regexConfig.taiwan (.seq (.lazyStar .dot) (lit "🇨🇳")))
      (.seq (lit "🇨🇳") (.seq (.lazyStar .dot) regexConfig.taiwan))).run false n s = [] := by
  rw [List.eq_nil_iff_forall_not_mem]
  intro t ht
  exact h (taiwan_needs_flag ht)

theorem quiet_taiwan {a b : Char} (ha : flagC ≠ a) (hb : flagC ≠ b) :
    QuietAt false (Regex.alt
      (.seq regexConfig.taiwan (.seq (.lazyStar .dot) (lit "🇨🇳")))
      (.seq (lit "🇨🇳") (.seq (.lazyStar .dot) regexConfig.taiwan))) a b := by
  intro n r hr
  have hsp : flagC ≠ ' ' := by decide
  refine ⟨taiwan_nil ?_, taiwan_nil ?_, taiwan_nil ?_⟩
  · simp only [List.mem_cons, not_or]
    exact ⟨ha, hb, hsp, hr⟩
  · simp only [List.mem_cons, not_or]
    exact ⟨hb, hsp, hr⟩
  · simp only [List.mem_cons, not_or]
    exact ⟨hsp, hr⟩

set_option maxHeartbeats 4000000 in
set_option maxRecDepth 4000 in
/-- Every entry of `regionReplace` is global, has a replacement text without `flagC`, and is
quiet at every region key. -/
theorem table_quiet :
    ∀ e ∈ regexConfig.regionReplace,
      e.2.global = true ∧ flagC ∉ e.1.data ∧
        ∀ ab ∈ keyPairs, QuietAt e.2.ignoreCase e.2.source ab.1 ab.2 := by
  intro e he
  simp only [regexConfig.regionReplace, List.mem_cons, List.mem_singleton, List.not_mem_nil,
    or_false] at he
  rcases he with rfl | rfl | rfl | rfl | rfl | rfl | rfl | rfl | rfl | rfl | rfl | rfl | rfl |
    rfl | rfl <;>
  · refine ⟨rfl, by decide, ?_⟩
    intro ab hab
    simp only [keyPairs, List.mem_cons, List.mem_singleton, List.not_mem_nil, or_false] at hab
    rcases hab with rfl | rfl | rfl | rfl | rfl | rfl <;>
    first
      | exact quiet_of_mayStart (by decide) (by decide) (by decide)
      | exact quiet_taiwan (by decide) (by decide)

theorem foldl_invariant {α β : Type} (P : β → Prop) (f : β → α → β) :
    ∀ (l : List α), (∀ e ∈ l, ∀ b, P b → P (f b e)) → ∀ b, P b → P (l.foldl f b)
  | [], _, _, hb => hb
  | e :: l, h, b, hb =>
    foldl_invariant P f l (fun e' he' => h e' (List.mem_cons_of_mem _ he')) (f b e)
      (h e (List.mem_cons_self _ _) b hb)

/-- The substitutions leave a region key and the space after it in place. -/
theorem substituted_keeps (ab : Char × Char) (hab : ab ∈ keyPairs) (s : String)
    (r : List Char) (hs : s.data = ab.1 :: ab.2 :: ' ' :: r) (hr : flagC ∉ r) :
    ∃ r2, (substituted s).data = ab.1 :: ab.2 :: ' ' :: r2 ∧ flagC ∉ r2 := by
  unfold substituted
  apply foldl_invariant (fun t : String => ∃ r2, t.data = ab.1 :: ab.2 :: ' ' :: r2 ∧ flagC ∉ r2)
  · intro e he t ⟨r2, h1, h2⟩
    obtain ⟨hg, hz, hq⟩ := table_quiet e he
    exact strReplace_keeps e.2 e.1 ab.1 ab.2 hg (hq ab hab) hz t r2 h1 h2
  · exact ⟨r, hs, hr⟩

/-- The removal of the trailing ordinal leaves two leading letters in place. -/
theorem strip_keeps (a b : Char) (s : String) (r : List Char) (hs : s.data = a :: b :: r)
    (ha : mayStart false regexConfig.number.source [a] = false)
    (hb : mayStart false regexConfig.number.source [b] = false) :
    ∃ r2, (strReplace s regexConfig.number "").data = a :: b :: r2 := by
  have key : ∀ n : Nat, search false n regexConfig.number.source (a :: b :: r) =
      (search false n regexConfig.number.source r).map
        (fun x => (a :: b :: x.1, x.2.1, x.2.2)) := by
    intro n
    have h1 : regexConfig.number.source.run false n (a :: b :: r) = [] :=
      mayStart_sound false n (b :: r) _ [a] ha
    have h2 : regexConfig.number.source.run false n (b :: r) = [] :=
      mayStart_sound false n r _ [b] hb
    rw [search_cons_of_nil h1, search_cons_of_nil h2, Option.map_map]
    rfl
  have hexec : regexConfig.number.exec s =
      (search false s.data.length regexConfig.number.source r).map
        (fun x => (a :: b :: x.1, x.2.1, x.2.2)) := by
    have := key s.data.length
    rw [← hs] at this
    exact this
  have hg : regexConfig.number.global = false := rfl
  rw [strReplace, if_neg (by rw [hg]; simp), hexec]
  cases search false s.data.length regexConfig.number.source r with
  | none => exact ⟨r, hs⟩
  | some x => exact ⟨x.1 ++ "".data ++ x.2.2, rfl⟩

theorem litChars_run (ic : Bool) (n : Nat) :
    ∀ (w r : List Char),
      r ∈ (w.foldr (fun c x => Regex.seq (.chr c) x) Regex.eps).run ic n (w ++ r)
  | [], r => by simp [Regex.run]
  | c :: w, r => by
    rw [List.foldr_cons, mem_run_seq]
    refine ⟨w ++ r, ?_, litChars_run ic n w r⟩
    rw [Regex.run]
    exact mem_atom.mpr ⟨c, rfl, by simp [eqChar]⟩

theorem lit_run (ic : Bool) (n : Nat) (w : String) (r : List Char) :
    r ∈ (lit w).run ic n (w.data ++ r) :=
  litChars_run ic n w.data r

theorem mem_run_alts {ic : Bool} {n : Nat} {s t : List Char} :
    ∀ (l : List Regex) (a : Regex), a ∈ l → t ∈ a.run ic n s → t ∈ (alts l).run ic n s
  | [], a, h, _ => by simp at h
  | [b], a, h, ht => by
    rw [List.mem_singleton] at h
    rw [alts, ← h]
    exact ht
  | b :: c :: l, a, h, ht => by
    rw [alts, mem_run_alt]
    rcases List.mem_cons.mp h with rfl | h
    · exact Or.inl ht
    · exact Or.inr (mem_run_alts (c :: l) a h ht)

theorem search_bol_none (ic : Bool) (n : Nat) (X : Regex) :
    ∀ s : List Char, s.length < n → search ic n (.seq .bol X) s = none
  | [], h => by
    have : (Regex.seq .bol X).run ic n [] = [] := by
      rw [Regex.run, Regex.run, if_neg (by simp; omega)]
      rfl
    rw [search, this]
  | c :: cs, h => by
    have : (Regex.seq .bol X).run ic n (c :: cs) = [] := by
      rw [Regex.run, Regex.run, if_neg (by simp at h ⊢; omega)]
      rfl
    rw [search_cons_of_nil this, search_bol_none ic n X cs (by simp at h; omega)]
    rfl

theorem test_bol_chars (ic : Bool) (X : Regex) :
    ∀ d : List Char,
      (search ic d.length (.seq .bol X) d).isSome = !(X.run ic d.length d).isEmpty
  | [] => by
    have hrun : (Regex.seq .bol X).run ic 0 [] = X.run ic 0 [] := by
      rw [Regex.run, Regex.run]
      simp
    rw [search, List.length_nil, hrun]
    cases X.run ic 0 [] <;> rfl
  | c :: cs => by
    have hrun : (Regex.seq .bol X).run ic (c :: cs).length (c :: cs) =
        X.run ic (c :: cs).length (c :: cs) := by
      rw [Regex.run, Regex.run, if_pos rfl]
      simp
    rw [search, hrun]
    cases hx : X.run ic (c :: cs).length (c :: cs) with
    | nil =>
      simp only [List.isEmpty_nil, Bool.not_true, Option.isSome_map']
      rw [search_bol_none ic _ X cs (by simp)]
      rfl
    | cons t ts => rfl

/-- A pattern anchored with `^` is tried at the start of the name only. -/
theorem test_bol (ic g : Bool) (X : Regex) (s : String) :
    ({ source := .seq .bol X, ignoreCase := ic, global := g } : RegExp).test s =
      !(X.run ic s.data.length s.data).isEmpty :=
  test_bol_chars ic X s.data

theorem region_test_false (X : Regex) (p r : List Char) (s : String) (hs : s.data = p ++ r)
    (h : mayStart true X p = false) :
    ({ source := .seq .bol X, ignoreCase := true } : RegExp).test s = false := by
  rw [test_bol, hs, mayStart_sound true _ r X p h]
  rfl

theorem region_test_true (l : List String) (w : String) (hw : w ∈ l) (r : List Char)
    (s : String) (hs : s.data = w.data ++ r) :
    ({ source := .seq .bol (alts (l.map lit)), ignoreCase := true } : RegExp).test s = true := by
  rw [test_bol]
  have : r ∈ (alts (l.map lit)).run true s.data.length s.data := by
    rw [hs]
    exact mem_run_alts _ (lit w) (List.mem_map_of_mem _ hw) (lit_run true _ w r)
  cases hx : (alts (l.map lit)).run true s.data.length s.data with
  | nil =>
    rw [hx] at this
    exact absurd this (by simp)
  | cons t ts => rfl

/-- A name that starts with a region key is given that region. -/
theorem region_of_prefix (R : String) (hR : R ∈ ["HK", "SG", "JP", "US", "TW", "KR"])
    (s : String) (r : List Char) (hs : s.data = R.data ++ r) :
    (regexConfig.regions.find? (fun e => e.2.test s)).map (fun e => e.1) = some R := by
  simp only [List.mem_cons, List.mem_singleton, List.not_mem_nil, or_false] at hR
  rcases hR with rfl | rfl | rfl | rfl | rfl | rfl
  · have h1 := region_test_true ["香港", "HK", "Hong Kong", "🇭🇰"] "HK" (by simp) r s hs
    simp only [regexConfig.regions, List.find?_cons, h1, Option.map_some']
  · have h1 := region_test_false (alts (["香港", "HK", "Hong Kong", "🇭🇰"].map lit)) _ r s hs
      (by decide)
    have h2 := region_test_true ["新加坡", "狮城", "SG", "Singapore", "🇸🇬"] "SG" (by simp) r s hs
    simp only [regexConfig.regions, List.find?_cons, h1, h2, Option.map_some']
  · have h1 := region_test_false (alts (["香港", "HK", "Hong Kong", "🇭🇰"].map lit)) _ r s hs
      (by decide)
    have h2 := region_test_false (alts (["新加坡", "狮城", "SG", "Singapore", "🇸🇬"].map lit)) _ r s
      hs (by decide)
    have h3 := region_test_true ["日本", "JP", "Japan", "🇯🇵"] "JP" (by simp) r s hs
    simp only [regexConfig.regions, List.find?_cons, h1, h2, h3, Option.map_some']
  · have h1 := region_test_false (alts (["香港", "HK", "Hong Kong", "🇭🇰"].map lit)) _ r s hs
      (by decide)
    have h2 := region_test_false (alts (["新加坡", "狮城", "SG", "Singapore", "🇸🇬"].map lit)) _ r s
      hs (by decide)
    have h3 := region_test_false (alts (["日本", "JP", "Japan", "🇯🇵"].map lit)) _ r s hs
      (by decide)
    have h4 := region_test_true ["美国", "US", "United States", "🇺🇸"] "US" (by simp) r s hs
    simp only [regexConfig.regions, List.find?_cons, h1, h2, h3, h4, Option.map_some']
  · have h1 := region_test_false (alts (["香港", "HK", "Hong Kong", "🇭🇰"].map lit)) _ r s hs
      (by decide)
    have h2 := region_test_false (alts (["新加坡", "狮城", "SG", "Singapore", "🇸🇬"].map lit)) _ r s
      hs (by decide)
    have h3 := region_test_false (alts (["日本", "JP", "Japan", "🇯🇵"].map lit)) _ r s hs
      (by decide)
    have h4 := region_test_false (alts (["美国", "US", "United States", "🇺🇸"].map lit)) _ r s hs
      (by decide)
    have h5 := region_test_true ["台湾", "TW", "Taiwan", "🇹🇼"] "TW" (by simp) r s hs
    simp only [regexConfig.regions, List.find?_cons, h1, h2, h3, h4, h5, Option.map_some']
  · have h1 := region_test_false (alts (["香港", "HK", "Hong Kong", "🇭🇰"].map lit)) _ r s hs
      (by decide)
    have h2 := region_test_false (alts (["新加坡", "狮城", "SG", "Singapore", "🇸🇬"].map lit)) _ r s
      hs (by decide)
    have h3 := region_test_false (alts (["日本", "JP", "Japan", "🇯🇵"].map lit)) _ r s hs
      (by decide)
    have h4 := region_test_false (alts (["美国", "US", "United States", "🇺🇸"].map lit)) _ r s hs
      (by decide)
    have h5 := region_test_false (alts (["台湾", "TW", "Taiwan", "🇹🇼"].map lit)) _ r s hs
      (by decide)
    have h6 := region_test_true ["韩国", "KR", "Korea", "🇰🇷"] "KR" (by simp) r s hs
    simp only [regexConfig.regions, List.find?_cons, h1, h2, h3, h4, h5, h6, Option.map_some']

theorem intercalate_go_data :
    ∀ (rest : List String) (acc : String),
      (String.intercalate.go acc " " rest).data =
        acc.data ++ rest.flatMap (fun f => ' ' :: f.data)
  | [], acc => by simp [String.intercalate.go]
  | a :: rest, acc => by
    rw [String.intercalate.go, intercalate_go_data rest]
    simp

/-- With a region detected, the returned name is the region key, alone or followed by a space
and by fields free of `flagC`. -/
theorem name_data_of_region {name R : String} (h : (processNodeName name).region = some R) :
    ∃ rest, (processNodeName name).name.data = R.data ++ rest ∧
      (rest = [] ∨ ∃ r, rest = ' ' :: r ∧ flagC ∉ r) := by
  have hne : (processNodeName name).region.toList ++ (processNodeName name).specialTag.toList ++
      (processNodeName name).multiplier.toList ≠ [] := by
    rw [h]
    simp
  have hname := (name_of_fields name hne).1
  have hchars : ∀ f ∈ (processNodeName name).specialTag.toList ++
      (processNodeName name).multiplier.toList, flagC ∉ f.data := by
    intro f hf hz
    simp only [List.mem_append, Option.mem_toList, Option.mem_def] at hf
    rcases hf with hf | hf
    · exact absurd ((specialTag_chars hf).2 _ hz) (by decide)
    · exact absurd ((multiplier_chars hf).2 _ hz) (by decide)
  rw [h, Option.toList_some, List.append_assoc, List.singleton_append, String.intercalate]
    at hname
  have hdata := congrArg String.data hname
  rw [intercalate_go_data] at hdata
  refine ⟨_, hdata, ?_⟩
  generalize (processNodeName name).specialTag.toList ++
    (processNodeName name).multiplier.toList = fs at hchars
  cases fs with
  | nil => exact Or.inl rfl
  | cons f fs =>
    refine Or.inr ⟨f.data ++ fs.flatMap (fun f => ' ' :: f.data), by simp, ?_⟩
    intro hz
    rw [List.mem_append, List.mem_flatMap] at hz
    rcases hz with hz | ⟨g, hg, hz⟩
    · exact hchars f (List.mem_cons_self _ _) hz
    · rcases List.mem_cons.mp hz with hz | hz
      · exact absurd hz (by decide)
      · exact hchars g (List.mem_cons_of_mem _ hg) hz

theorem region_fixed :
    ∀ R ∈ ["HK", "SG", "JP", "US", "TW", "KR"], (processNodeName R).region = some R := by
  decide

theorem key_pair {R : String} (hR : R ∈ ["HK", "SG", "JP", "US", "TW", "KR"]) :
    ∃ ab ∈ keyPairs, R.data = [ab.1, ab.2] ∧
      mayStart false regexConfig.number.source [ab.1] = false ∧
      mayStart false regexConfig.number.source [ab.2] = false := by
  simp only [List.mem_cons, List.mem_singleton, List.not_mem_nil, or_false] at hR
  rcases hR with rfl | rfl | rfl | rfl | rfl | rfl
  · exact ⟨('H', 'K'), by decide, rfl, by decide, by decide⟩
  · exact ⟨('S', 'G'), by decide, rfl, by decide, by decide⟩
  · exact ⟨('J', 'P'), by decide, rfl, by decide, by decide⟩
  · exact ⟨('U', 'S'), by decide, rfl, by decide, by decide⟩
  · exact ⟨('T', 'W'), by decide, rfl, by decide, by decide⟩
  · exact ⟨('K', 'R'), by decide, rfl, by decide, by decide⟩

/-! ## Objects: keys that an assignment leaves alone -/

theorem lookup_map_ne {ω : Type} (k j : String) (v : Value ω) (h : k ≠ j) :
    ∀ o : Obj ω,
      List.lookup k (o.map (fun e => if e.1 == j then (j, v) else e)) = List.lookup k o
  | [] => rfl
  | e :: es => by
    have h2 : (k == j) = false := by rw [beq_eq_false_iff_ne]; exact h
    by_cases he : e.1 = j
    · have h1 : (e.1 == j) = true := by rw [beq_iff_eq]; exact he
      have h3 : (k == e.1) = false := by rw [he]; exact h2
      rw [List.map_cons, h1, if_pos rfl, List.lookup_cons, h2, List.lookup_cons, h3]
      exact lookup_map_ne k j v h es
    · have h1 : (e.1 == j) = false := by rw [beq_eq_false_iff_ne]; exact he
      rw [List.map_cons, h1, if_neg (by simp), List.lookup_cons, List.lookup_cons,
        lookup_map_ne k j v h es]

theorem lookup_append_ne {ω : Type} (k j : String) (v : Value ω) (h : k ≠ j) :
    ∀ o : Obj ω, List.lookup k (o ++ [(j, v)]) = List.lookup k o
  | [] => by
    have h2 : (k == j) = false := by rw [beq_eq_false_iff_ne]; exact h
    rw [List.nil_append, List.lookup_cons, h2]
  | e :: es => by
    rw [List.cons_append, List.lookup_cons, List.lookup_cons, lookup_append_ne k j v h es]

/-- Assigning to one key leaves the value under every other key as it was. -/
theorem lookup_setKey_ne {ω : Type} (k j : String) (v : Value ω) (h : k ≠ j) (o : Obj ω) :
    List.lookup k (setKey o j v) = List.lookup k o := by
  unfold setKey
  split
  · exact lookup_map_ne k j v h o
  · exact lookup_append_ne k j v h o

theorem lookup_assign_ne {ω : Type} (k : String) :
    ∀ (src o : Obj ω), (∀ e ∈ src, k ≠ e.1) → List.lookup k (assign o src) = List.lookup k o
  | [], _, _ => rfl
  | e :: src, o, h => by
    have := lookup_assign_ne k src (setKey o e.1 e.2)
      (fun e' he' => h e' (List.mem_cons_of_mem _ he'))
    unfold assign at this ⊢
    rw [List.foldl_cons, this, lookup_setKey_ne k e.1 e.2 (h e (List.mem_cons_self _ _))]

/-! ## The emitted groups -/

/-- Every emitted group is one of the six with a fixed member list, one of the four that list
all nodes, or a region group. -/
theorem mem_groups {names : List String} {G : ProxyGroup} (h : G ∈ groups names) :
    (G.name, G.proxies) ∈
        [("代理模式", ["自动选择", "手动选择", "负载均衡(散列)", "负载均衡(轮询)", "DIRECT"]),
         ("ChatGPT", ["美国节点", "日本节点", "手动选择"]),
         ("Claude", ["美国节点", "手动选择"]),
         ("Spotify", ["DIRECT", "代理模式"]),
         ("电报消息", ["代理模式", "手动选择"]),
         ("广告拦截", ["REJECT", "DIRECT"])] ∨
    (G.name ∈ ["手动选择", "自动选择", "负载均衡(散列)", "负载均衡(轮询)"] ∧ G.proxies = names) ∨
    (∃ e ∈ regexConfig.regions, G.name = e.1 ++ "-自动选择" ∧
      G.proxies = names.filter (fun name => e.2.test name)) ∨
    (∃ e ∈ regexConfig.regions, G.name = e.1 ++ "-手动选择" ∧
      G.proxies = "DIRECT" :: names.filter (fun name => e.2.test name)) := by
  unfold groups at h
  rw [List.mem_append, List.mem_append] at h
  rcases h with (h | h) | h
  · simp only [List.mem_cons, List.mem_singleton, List.not_mem_nil, or_false] at h
    rcases h with rfl | rfl | rfl | rfl | rfl | rfl | rfl | rfl | rfl | rfl <;>
      first
      | (left; simp [proxyName]; done)
      | (right; left; refine ⟨?_, rfl⟩; simp)
  · unfold autoProxyGroups at h
    rw [List.mem_filter, List.mem_map] at h
    obtain ⟨⟨e, he, rfl⟩, -⟩ := h
    exact Or.inr (Or.inr (Or.inl ⟨e, he, rfl, rfl⟩))
  · unfold manualProxyGroups at h
    rw [List.mem_filter, List.mem_map] at h
    obtain ⟨⟨e, he, rfl⟩, -⟩ := h
    exact Or.inr (Or.inr (Or.inr ⟨e, he, rfl, rfl⟩))

theorem region_key_mem {e : String × RegExp} (he : e ∈ regexConfig.regions) :
    e.1 ∈ ["HK", "SG", "JP", "US", "TW", "KR"] := by
  rw [← region_keys]
  exact List.mem_map_of_mem _ he

/-- The names an emitted group can have. -/
theorem group_name_mem {names : List String} {G : ProxyGroup} (h : G ∈ groups names) :
    G.name ∈ ["代理模式", "手动选择", "自动选择", "负载均衡(散列)", "负载均衡(轮询)", "ChatGPT", "Claude",
      "Spotify", "电报消息", "广告拦截", "HK-自动选择", "SG-自动选择", "JP-自动选择", "US-自动选择",
      "TW-自动选择", "KR-自动选择", "HK-手动选择", "SG-手动选择", "JP-手动选择", "US-手动选择",
      "TW-手动选择", "KR-手动选择"] := by
  rcases mem_groups h with h | ⟨h, -⟩ | ⟨e, he, h, -⟩ | ⟨e, he, h, -⟩
  · simp only [List.mem_cons, List.mem_singleton, List.not_mem_nil, or_false, Prod.mk.injEq] at h
    rcases h with ⟨h, -⟩ | ⟨h, -⟩ | ⟨h, -⟩ | ⟨h, -⟩ | ⟨h, -⟩ | ⟨h, -⟩ <;> rw [h] <;> decide
  · simp only [List.mem_cons, List.mem_singleton, List.not_mem_nil, or_false] at h
    rcases h with h | h | h | h <;> rw [h] <;> decide
  · have hk := region_key_mem he
    simp only [List.mem_cons, List.mem_singleton, List.not_mem_nil, or_false] at hk
    rcases hk with hk | hk | hk | hk | hk | hk <;> rw [h, hk] <;> decide
  · have hk := region_key_mem he
    simp only [List.mem_cons, List.mem_singleton, List.not_mem_nil, or_false] at hk
    rcases hk with hk | hk | hk | hk | hk | hk <;> rw [h, hk] <;> decide

/-- A reference between emitted groups lowers the rank, when no node carries the name of a
group. -/
theorem refers_rank {names : List String}
    (hfresh : ∀ n ∈ names, ∀ G ∈ groups names, n ≠ G.name) {g h : String}
    (hr : refers (groups names) g h) : groupRank h < groupRank g := by
  obtain ⟨G, hG, rfl, hh, H, hH, rfl⟩ := hr
  have hname := group_name_mem hH
  have hnode : H.name ∉ names := fun hn => hfresh _ hn H hH rfl
  have hdirect : H.name ≠ "DIRECT" := fun hd => by rw [hd] at hname; revert hname; decide
  rcases mem_groups hG with h | ⟨-, h⟩ | ⟨e, -, -, h⟩ | ⟨e, -, -, h⟩
  · exact (by decide : ∀ pr ∈
        [("代理模式", ["自动选择", "手动选择", "负载均衡(散列)", "负载均衡(轮询)", "DIRECT"]),
         ("ChatGPT", ["美国节点", "日本节点", "手动选择"]),
         ("Claude", ["美国节点", "手动选择"]),
         ("Spotify", ["DIRECT", "代理模式"]),
         ("电报消息", ["代理模式", "手动选择"]),
         ("广告拦截", ["REJECT", "DIRECT"])],
      ∀ h ∈ pr.2, h ∈ ["代理模式", "手动选择", "自动选择", "负载均衡(散列)", "负载均衡(轮询)",
        "ChatGPT", "Claude", "Spotify", "电报消息", "广告拦截", "HK-自动选择", "SG-自动选择",
        "JP-自动选择", "US-自动选择", "TW-自动选择", "KR-自动选择", "HK-手动选择", "SG-手动选择",
        "JP-手动选择", "US-手动选择", "TW-手动选择", "KR-手动选择"] →
      groupRank h < groupRank pr.1) (G.name, G.proxies) h H.name hh hname
  · rw [h] at hh
    exact absurd hh hnode
  · rw [h] at hh
    exact absurd (List.mem_of_mem_filter hh) hnode
  · rw [h, List.mem_cons] at hh
    rcases hh with hh | hh
    · exact absurd hh hdirect
    · exact absurd (List.mem_of_mem_filter hh) hnode

theorem transGen_rank {names : List String}
    (hfresh : ∀ n ∈ names, ∀ G ∈ groups names, n ≠ G.name) {g h : String}
    (hr : Relation.TransGen (refers (groups names)) g h) : groupRank h < groupRank g := by
  induction hr with
  | single h1 => exact refers_rank hfresh h1
  | tail _ h1 ih => exact lt_trans (refers_rank hfresh h1) ih

set_option maxHeartbeats 2000000 in
/-- The four groups over all nodes list the node names as they are. -/
theorem groups_of_all (names : List String) (hk sg jp us tw kr : RegExp)
    (htbl : regexConfig.regions =
      [("HK", hk), ("SG", sg), ("JP", jp), ("US", us), ("TW", tw), ("KR", kr)])
    (n : String) (hn : n ∈ ["手动选择", "自动选择", "负载均衡(散列)", "负载均衡(轮询)"]) :
    ((groups names).filter (fun g => g.name == n)).map (fun g => g.proxies) = [names] := by
  simp only [groups, autoProxyGroups, manualProxyGroups, List.filter_append, List.filter_filter,
    List.filter_map, List.map_append, List.map_map]
  rw [htbl]
  simp only [List.mem_cons, List.mem_singleton, List.not_mem_nil, or_false] at hn
  rcases hn with rfl | rfl | rfl | rfl <;> simp [List.filter_cons, proxyName]

/-! ## The first character of a match -/

theorem canonicalize_of_eqChar {ic : Bool} {p c : Char} (h : eqChar ic p c = true) :
    canonicalize ic p = canonicalize ic c := by
  simpa [eqChar] using h

theorem eqChar_of_common {ic : Bool} {p q c : Char} (hp : eqChar ic p c = true)
    (hq : eqChar ic q c = true) : eqChar ic p q = true := by
  simp only [eqChar, beq_iff_eq] at *
  rw [hp, hq]

/-- A match of a headed pattern begins with a character matched by one of its heads. -/
theorem run_head (ic : Bool) (n : Nat) :
    ∀ r : Regex, r.headed = true → ∀ s t, t ∈ r.run ic n s →
      ∃ c cs p, s = c :: cs ∧ p ∈ r.heads ∧ eqChar ic p c = true := by
  intro r
  induction r using Regex.headed.induct with
  | case1 x =>
    intro _ s t h
    simp only [Regex.run, mem_atom] at h
    obtain ⟨c, rfl, hc⟩ := h
    exact ⟨c, t, x, rfl, by simp [Regex.heads], hc⟩
  | case2 xs =>
    intro _ s t h
    simp only [Regex.run, mem_atom, List.any_eq_true] at h
    obtain ⟨c, rfl, p, hp, hc⟩ := h
    exact ⟨c, t, p, rfl, by simpa [Regex.heads] using hp, hc⟩
  | case3 b ih =>
    intro hh s t h
    rw [mem_run_seq] at h
    obtain ⟨u, hu, ht⟩ := h
    have hus : u = s := by
      simp only [Regex.run] at hu
      split at hu
      · simpa using hu
      · simp at hu
    rw [hus] at ht
    rw [Regex.headed] at hh
    obtain ⟨c, cs, p, hs, hp, hc⟩ := ih hh s t ht
    exact ⟨c, cs, p, hs, by rw [Regex.heads]; exact hp, hc⟩
  | case4 a b hne ih =>
    intro hh s t h
    rw [mem_run_seq] at h
    obtain ⟨u, hu, -⟩ := h
    rw [Regex.headed] at hh
    · obtain ⟨c, cs, p, hs, hp, hc⟩ := ih hh s u hu
      refine ⟨c, cs, p, hs, ?_, hc⟩
      rw [Regex.heads]
      · exact hp
      · exact hne
    · exact hne
  | case5 a b iha ihb =>
    intro hh s t h
    rw [Regex.headed, Bool.and_eq_true] at hh
    rw [mem_run_alt] at h
    rcases h with h | h
    · obtain ⟨c, cs, p, hs, hp, hc⟩ := iha hh.1 s t h
      exact ⟨c, cs, p, hs, by rw [Regex.heads]; exact List.mem_append_left _ hp, hc⟩
    · obtain ⟨c, cs, p, hs, hp, hc⟩ := ihb hh.2 s t h
      exact ⟨c, cs, p, hs, by rw [Regex.heads]; exact List.mem_append_right _ hp, hc⟩
  | case6 r h1 h2 h3 h4 =>
    intro hh
    rw [Regex.headed] at hh
    · exact absurd hh (by simp)
    all_goals assumption

/-! ## The region table -/

/-- A name that matches the pattern of a region begins with a character matched by one of the
heads of that pattern. -/
theorem region_head {e : String × RegExp} (he : e ∈ regexConfig.regions) {s : String}
    (h : e.2.test s = true) :
    ∃ c cs p, s.data = c :: cs ∧ p ∈ e.2.source.heads ∧ eqChar true p c = true := by
  have key : ∀ (X : Regex), X.headed = true →
      ({ source := .seq .bol X, ignoreCase := true } : RegExp).test s = true →
      ∃ c cs p, s.data = c :: cs ∧ p ∈ (Regex.seq .bol X).heads ∧ eqChar true p c = true := by
    intro X hX ht
    rw [test_bol] at ht
    cases hx : X.run true s.data.length s.data with
    | nil =>
      rw [hx] at ht
      simp at ht
    | cons t ts =>
      obtain ⟨c, cs, p, hs, hp, hc⟩ :=
        run_head true _ X hX s.data t (by rw [hx]; exact List.mem_cons_self _ _)
      exact ⟨c, cs, p, hs, by rw [Regex.heads]; exact hp, hc⟩
  simp only [regexConfig.regions, List.mem_cons, List.mem_singleton, List.not_mem_nil, or_false]
    at he
  rcases he with rfl | rfl | rfl | rfl | rfl | rfl <;> exact key _ (by decide) h

/-- The heads of the patterns of two different regions never match the same character. -/
theorem region_heads_apart :
    ∀ e1 ∈ regexConfig.regions, ∀ e2 ∈ regexConfig.regions,
      ∀ p1 ∈ e1.2.source.heads, ∀ p2 ∈ e2.2.source.heads,
        eqChar true p1 p2 = true → e1.1 = e2.1 := by
  decide

theorem region_entry_ext {e1 e2 : String × RegExp} (h1 : e1 ∈ regexConfig.regions)
    (h2 : e2 ∈ regexConfig.regions) (h : e1.1 = e2.1) : e1 = e2 := by
  simp only [regexConfig.regions, List.mem_cons, List.mem_singleton, List.not_mem_nil, or_false]
    at h1 h2
  rcases h1 with rfl | rfl | rfl | rfl | rfl | rfl <;>
    rcases h2 with rfl | rfl | rfl | rfl | rfl | rfl <;>
    first
    | rfl
    | exact absurd h (by decide)

/-- No name matches the patterns of two regions. -/
theorem region_unique {e1 e2 : String × RegExp} (h1 : e1 ∈ regexConfig.regions)
    (h2 : e2 ∈ regexConfig.regions) {s : String} (t1 : e1.2.test s = true)
    (t2 : e2.2.test s = true) : e1 = e2 := by
  obtain ⟨c, cs, p, hs, hp, hc⟩ := region_head h1 t1
  obtain ⟨c2, cs2, q, hs2, hq, hc2⟩ := region_head h2 t2
  rw [hs, List.cons.injEq] at hs2
  rw [← hs2.1] at hc2
  exact region_entry_ext h1 h2
    (region_heads_apart e1 h1 e2 h2 p hp q hq (eqChar_of_common hc hc2))

/-- The entry found first does not depend on the order of the table. -/
theorem find_region_perm (s : String) (tbl : List (String × RegExp))
    (h : tbl.Perm regexConfig.regions) :
    tbl.find? (fun e => e.2.test s) = regexConfig.regions.find? (fun e => e.2.test s) := by
  cases h1 : tbl.find? (fun e => e.2.test s) with
  | none =>
    rw [List.find?_eq_none] at h1
    symm
    rw [List.find?_eq_none]
    intro e he
    exact h1 e (h.mem_iff.mpr he)
  | some e1 =>
    have hm1 := h.mem_iff.mp (List.mem_of_find?_eq_some h1)
    have ht1 : e1.2.test s = true := by simpa using List.find?_some h1
    cases h2 : regexConfig.regions.find? (fun e => e.2.test s) with
    | none =>
      rw [List.find?_eq_none] at h2
      exact absurd ht1 (h2 e1 hm1)
    | some e2 =>
      have ht2 : e2.2.test s = true := by simpa using List.find?_some h2
      rw [region_unique hm1 (List.mem_of_find?_eq_some h2) ht1 ht2]

theorem entry_of_region {name R : String} (h : (processNodeName name).region = some R) :
    ∃ e ∈ regexConfig.regions, e.1 = R ∧ e.2.test (stripped name) = true := by
  rw [region_eq, Option.map_eq_some'] at h
  obtain ⟨e, he, hR⟩ := h
  have ht : e.2.test (stripped name) = true := by simpa using List.find?_some he
  exact ⟨e, List.mem_of_find?_eq_some he, hR, ht⟩

theorem isMultiplierChar_upper {c : Char} (h : isMultiplierChar c = true) :
    isMultiplierChar c.toUpper = true := by
  by_cases hx : c.toNat ≥ 97 ∧ c.toNat ≤ 122
  · have hc : c = 'x' := by
      simp only [isMultiplierChar, isDigit, Bool.or_eq_true, Bool.and_eq_true,
        decide_eq_true_eq, beq_iff_eq] at h
      rcases h with (((h | h) | h) | h) | h
      · omega
      · rw [h] at hx
        exact absurd hx (by decide)
      · exact h
      · rw [h] at hx
        exact absurd hx (by decide)
      · rw [h] at hx
        exact absurd hx (by decide)
    rw [hc]
    decide
  · have : c.toUpper = c := by
      simp only [Char.toUpper]
      rw [if_neg hx]
    rw [this]
    exact h

theorem canonicalize_multiplier {ic : Bool} {c : Char} (h : isMultiplierChar c = true) :
    isMultiplierChar (canonicalize ic c) = true := by
  cases ic with
  | false => exact h
  | true => exact isMultiplierChar_upper h

theorem region_heads_not_multiplier :
    ∀ e ∈ regexConfig.regions, ∀ p ∈ e.2.source.heads,
      isMultiplierChar (canonicalize true p) = false := by
  decide

theorem region_heads_not_tag :
    ∀ e ∈ regexConfig.regions, ∀ p ∈ e.2.source.heads,
      ∀ q ∈ regexConfig.specialTags.source.heads, eqChar true p q = false := by
  decide

/-- The first character of a detected special tag is matched by a head of the tag pattern. -/
theorem specialTag_head {name w : String} (h : (processNodeName name).specialTag = some w) :
    ∃ c cs q, w.data = c :: cs ∧ q ∈ regexConfig.specialTags.source.heads ∧
      eqChar true q c = true := by
  have hne := data_ne_nil (specialTag_chars h).1
  rw [specialTag_eq] at h
  obtain ⟨pre, t, -, hrun⟩ := strMatch_spec h
  obtain ⟨c, cs, q, hs, hq, hc⟩ :=
    run_head _ _ regexConfig.specialTags.source (by decide) _ _ hrun
  cases hw : w.data with
  | nil => exact absurd hw hne
  | cons c2 cs2 =>
    rw [hw, List.cons_append, List.cons.injEq] at hs
    exact ⟨c2, cs2, q, rfl, hq, hs.1 ▸ hc⟩

/-- With no region detected, the returned name matches no region pattern. -/
theorem no_region_no_match {name : String} (hr : (processNodeName name).region = none)
    {e : String × RegExp} (he : e ∈ regexConfig.regions) :
    e.2.test (processNodeName name).name = false := by
  rw [← Bool.not_eq_true]
  intro ht
  obtain ⟨c, cs, p, hs, hp, hc⟩ := region_head he ht
  cases htag : (processNodeName name).specialTag with
  | some w =>
    have hne : (processNodeName name).region.toList ++
        (processNodeName name).specialTag.toList ++
        (processNodeName name).multiplier.toList ≠ [] := by
      rw [htag]
      simp
    have hname := (name_of_fields name hne).1
    rw [hr, htag, Option.toList_none, List.nil_append, Option.toList_some,
      List.singleton_append, String.intercalate] at hname
    have hdata := congrArg String.data hname
    rw [intercalate_go_data, hs] at hdata
    obtain ⟨c2, cs2, q, hw, hq, hc2⟩ := specialTag_head htag
    rw [hw, List.cons_append, List.cons.injEq] at hdata
    rw [← hdata.1] at hc2
    have := region_heads_not_tag e he p hp q hq
    rw [eqChar_of_common hc hc2] at this
    exact absurd this (by simp)
  | none =>
    cases hmul : (processNodeName name).multiplier with
    | some w =>
      have hne : (processNodeName name).region.toList ++
          (processNodeName name).specialTag.toList ++
          (processNodeName name).multiplier.toList ≠ [] := by
        rw [hmul]
        simp
      have hname := (name_of_fields name hne).1
      rw [hr, htag, hmul, Option.toList_none, List.nil_append, List.nil_append,
        Option.toList_some, String.intercalate] at hname
      have hdata := congrArg String.data hname
      rw [intercalate_go_data, hs] at hdata
      have hchars := multiplier_chars hmul
      cases hw : w.data with
      | nil => exact absurd hw (data_ne_nil hchars.1)
      | cons c2 cs2 =>
        rw [hw, List.cons_append, List.cons.injEq] at hdata
        have hm : isMultiplierChar c = true := by
          rw [hdata.1]
          exact hchars.2 c2 (by rw [hw]; exact List.mem_cons_self _ _)
        have := region_heads_not_multiplier e he p hp
        rw [canonicalize_of_eqChar hc, canonicalize_multiplier hm] at this
        exact absurd this (by simp)
    | none =>
      have hname := name_of_none name hr htag hmul
      have hfind := region_eq name
      rw [hr] at hfind
      have hnone : regexConfig.regions.find? (fun e => e.2.test (stripped name)) = none := by
        cases hx : regexConfig.regions.find? (fun e => e.2.test (stripped name)) with
        | none => rfl
        | some x =>
          rw [hx] at hfind
          simp at hfind
      rw [List.find?_eq_none] at hnone
      have hst : strReplace (substituted name) regexConfig.number "" = stripped name := rfl
      rw [hname, hst] at ht
      exact hnone e he ht

/-- The returned name matches the pattern of a region exactly when that region was
detected. -/
theorem test_iff_region (name : String) {e : String × RegExp} (he : e ∈ regexConfig.regions) :
    e.2.test (processNodeName name).name = true ↔ (processNodeName name).region = some e.1 := by
  cases hr : (processNodeName name).region with
  | none =>
    rw [no_region_no_match hr he]
    simp
  | some R =>
    obtain ⟨rest, hdata, -⟩ := name_data_of_region hr
    have hfind := region_of_prefix R (region_key hr) _ rest hdata
    rw [Option.map_eq_some'] at hfind
    obtain ⟨e0, h0, hR⟩ := hfind
    have hm0 := List.mem_of_find?_eq_some h0
    have ht0 : e0.2.test (processNodeName name).name = true := by
      simpa using List.find?_some h0
    constructor
    · intro ht
      rw [region_unique he hm0 ht ht0, hR]
    · intro h
      rw [Option.some.injEq] at h
      rw [region_entry_ext he hm0 (h ▸ hR.symm)]
      exact ht0

/-- The cleaned names that match the pattern of a region are the new names of the surviving
nodes for which that region was detected. -/
theorem filter_cleaned {ω : Type} (proxies : List (ProxyNode ω)) {e : String × RegExp}
    (he : e ∈ regexConfig.regions) :
    ((cleanNodes proxies).map (fun p => p.name)).filter (fun name => e.2.test name) =
      ((proxies.filter (fun p => !regexConfig.removeNodes.test p.name)).filter
        (fun p => (processNodeName p.name).region == some e.1)).map
        (fun p => (processNodeName p.name).name) := by
  have h1 : (cleanNodes proxies).map (fun p => p.name) =
      (proxies.filter (fun p => !regexConfig.removeNodes.test p.name)).map
        (fun p => (processNodeName p.name).name) := by
    rw [cleanNodes_eq_map_filter, List.map_map]
    apply List.map_congr_left
    intro p _
    simp only [Function.comp]
  have h2 : ∀ l : List (ProxyNode ω),
      l.filter ((fun name => e.2.test name) ∘ fun p => (processNodeName p.name).name) =
        l.filter (fun p => (processNodeName p.name).region == some e.1) := by
    intro l
    apply List.filter_congr
    intro p _
    simp only [Function.comp]
    rw [Bool.eq_iff_iff, test_iff_region p.name he]
    simp
  rw [h1, List.filter_map, h2]

/-- A member of a region group other than the DIRECT entry matches the pattern of the region
of the group. -/
theorem mem_region_group {names : List String} {G : ProxyGroup}
    (hG : G ∈ autoProxyGroups names ++ manualProxyGroups names) {s : String}
    (hs : s ∈ G.proxies) (hd : s ≠ "DIRECT") :
    ∃ e ∈ regexConfig.regions,
      G.name ∈ [e.1 ++ "-自动选择", e.1 ++ "-手动选择"] ∧ e.2.test s = true := by
  rw [List.mem_append] at hG
  rcases hG with hG | hG
  · unfold autoProxyGroups at hG
    rw [List.mem_filter, List.mem_map] at hG
    obtain ⟨⟨e, he, rfl⟩, -⟩ := hG
    exact ⟨e, he, List.mem_cons_self _ _, (List.mem_filter.mp hs).2⟩
  · unfold manualProxyGroups at hG
    rw [List.mem_filter, List.mem_map] at hG
    obtain ⟨⟨e, he, rfl⟩, -⟩ := hG
    rcases List.mem_cons.mp hs with hs | hs
    · exact absurd hs hd
    · exact ⟨e, he, List.mem_cons_of_mem _ (List.mem_cons_self _ _), (List.mem_filter.mp hs).2⟩

/-! ## Names that are only an ordinal -/

theorem canonicalize_number {ic : Bool} {c : Char} (h : isNumberChar c = true) :
    canonicalize ic c = c := by
  cases ic with
  | false => rfl
  | true =>
    have hx : ¬ (c.toNat ≥ 97 ∧ c.toNat ≤ 122) := by
      simp only [isNumberChar, isSpace, isDigit, Bool.or_eq_true, Bool.and_eq_true,
        decide_eq_true_eq, beq_iff_eq] at h
      rcases h with (h | h) | h
      · omega
      · omega
      · rw [h]
        decide
    simp only [canonicalize, if_true, Char.toUpper]
    rw [if_neg hx]

/-- A pattern whose heads are not number characters matches no number character. -/
theorem heads_not_number {ic : Bool} {r : Regex}
    (hh : ∀ p ∈ r.heads, isNumberChar (canonicalize ic p) = false) {c : Char}
    (hc : isNumberChar c = true) : ∀ p ∈ r.heads, eqChar ic p c = false := by
  intro p hp
  rw [← Bool.not_eq_true]
  intro he
  have := hh p hp
  rw [canonicalize_of_eqChar he, canonicalize_number hc, hc] at this
  exact absurd this (by simp)

theorem run_nil_of_heads {ic : Bool} {n : Nat} {r : Regex} (hr : r.headed = true)
    {s : List Char} (h : ∀ c ∈ s, ∀ p ∈ r.heads, eqChar ic p c = false) :
    r.run ic n s = [] := by
  cases hx : r.run ic n s with
  | nil => rfl
  | cons t ts =>
    obtain ⟨c, cs, p, hs, hp, hc⟩ :=
      run_head ic n r hr s t (by rw [hx]; exact List.mem_cons_self _ _)
    have := h c (by rw [hs]; exact List.mem_cons_self _ _) p hp
    rw [hc] at this
    exact absurd this (by simp)

/-- A headed pattern none of whose heads matches a character of the text is found nowhere in
the text. -/
theorem search_none_of_heads (ic : Bool) (n : Nat) (r : Regex) (hr : r.headed = true) :
    ∀ s : List Char, (∀ c ∈ s, ∀ p ∈ r.heads, eqChar ic p c = false) →
      search ic n r s = none
  | [], h => by
    rw [search, run_nil_of_heads hr h]
  | c :: cs, h => by
    rw [search_cons_of_nil (run_nil_of_heads hr h),
      search_none_of_heads ic n r hr cs (fun x hx => h x (List.mem_cons_of_mem _ hx))]
    rfl

theorem strReplace_of_none {s : String} {re : RegExp} (repl : String)
    (h : search re.ignoreCase s.data.length re.source s.data = none) :
    strReplace s re repl = s := by
  unfold strReplace
  split
  · rw [replaceLoop, h]
  · rw [RegExp.exec, h]

theorem replace_table_heads :
    ∀ e ∈ regexConfig.regionReplace,
      e.2.source.headed = true ∧
        ∀ p ∈ e.2.source.heads, isNumberChar (canonicalize e.2.ignoreCase p) = false := by
  decide

theorem removeNodes_heads :
    regexConfig.removeNodes.source.headed = true ∧
      ∀ p ∈ regexConfig.removeNodes.source.heads,
        isNumberChar (canonicalize regexConfig.removeNodes.ignoreCase p) = false := by
  decide

/-- A name made of number characters only is left as it is by the substitutions. -/
theorem substituted_of_number {name : String} (h : ∀ c ∈ name.data, isNumberChar c = true) :
    substituted name = name := by
  unfold substituted
  refine foldl_invariant (fun b => b = name) _ regexConfig.regionReplace ?_ name rfl
  intro e he b hb
  rw [hb]
  obtain ⟨h1, h2⟩ := replace_table_heads e he
  exact strReplace_of_none e.1
    (search_none_of_heads _ _ _ h1 _ (fun c hc => heads_not_number h2 (h c hc)))

/-- A name made of number characters only is not junk. -/
theorem removeNodes_of_number {name : String} (h : ∀ c ∈ name.data, isNumberChar c = true) :
    regexConfig.removeNodes.test name = false := by
  rw [RegExp.test, RegExp.exec,
    search_none_of_heads _ _ _ removeNodes_heads.1 _
      (fun c hc => heads_not_number removeNodes_heads.2 (h c hc))]
  rfl

/-- A name that the ordinal pattern matches from its first character is made of number
characters, and the removal of the ordinal leaves nothing of it. -/
theorem strip_whole {s : String}
    (h : regexConfig.number.source.run false s.data.length s.data ≠ []) :
    (∀ c ∈ s.data, isNumberChar c = true) ∧ strReplace s regexConfig.number "" = "" := by
  cases hx : regexConfig.number.source.run false s.data.length s.data with
  | nil => exact absurd hx h
  | cons t ts =>
    have hmem : t ∈ regexConfig.number.source.run false s.data.length s.data := by
      rw [hx]
      exact List.mem_cons_self _ _
    obtain ⟨rfl, -⟩ := number_match hmem
    obtain ⟨m, hm, hchars⟩ := run_within false _ _ _ number_within _ _ hmem
    rw [List.append_nil] at hm
    refine ⟨fun c hc => hchars c (hm ▸ hc), ?_⟩
    have hexec : ∃ m2, regexConfig.number.exec s = some ([], m2, []) := by
      unfold RegExp.exec
      have hic : regexConfig.number.ignoreCase = false := rfl
      rw [hic]
      cases hd : s.data with
      | nil =>
        rw [hd] at hx
        rw [search, hx]
        exact ⟨_, rfl⟩
      | cons c cs =>
        rw [hd] at hx
        rw [search, hx]
        exact ⟨_, rfl⟩
    obtain ⟨m2, hm2⟩ := hexec
    simp only [strReplace, hm2]
    simp [regexConfig.number]

theorem starLoop_self (step : List Char → List (List Char)) :
    ∀ (f : Nat) (s : List Char), s ∈ starLoop step f s
  | 0, s => by simp [starLoop]
  | f + 1, s => by simp [starLoop]

/-- White space in front of a text is consumed by `\s*`. -/
theorem star_space_run (ic : Bool) (n : Nat) (rest : List Char) :
    ∀ w : List Char, (∀ c ∈ w, isSpace c = true) →
      rest ∈ (Regex.star .space).run ic n (w ++ rest)
  | [], _ => by
    rw [mem_run_star, List.nil_append]
    exact starLoop_self _ _ _
  | c :: w, h => by
    have ih := star_space_run ic n rest w (fun x hx => h x (List.mem_cons_of_mem _ hx))
    rw [mem_run_star] at ih ⊢
    rw [List.cons_append, List.length_cons, starLoop, List.mem_append]
    left
    rw [List.mem_flatMap]
    refine ⟨w ++ rest, ?_, ih⟩
    rw [List.mem_filter]
    refine ⟨?_, by simp⟩
    simp only [Regex.run]
    exact mem_atom.mpr ⟨c, rfl, h c (List.mem_cons_self _ _)⟩

/-- One or two digits in front of a text are consumed by `[0-9]{1,2}`. -/
theorem digits12_run (ic : Bool) (n : Nat) (rest d : List Char)
    (hl : d.length = 1 ∨ d.length = 2) (hd : ∀ c ∈ d, isDigit c = true) :
    rest ∈ regexConfig.digits12.run ic n (d ++ rest) := by
  unfold regexConfig.digits12 opt
  rw [mem_run_seq]
  match d, hl, hd with
  | [a], _, hd =>
    refine ⟨rest, ?_, ?_⟩
    · simp only [Regex.run]
      exact mem_atom.mpr ⟨a, rfl, hd a (List.mem_cons_self _ _)⟩
    · rw [mem_run_alt]
      right
      simp [Regex.run]
  | [a, b], _, hd =>
    refine ⟨b :: rest, ?_, ?_⟩
    · simp only [Regex.run]
      exact mem_atom.mpr ⟨a, rfl, hd a (List.mem_cons_self _ _)⟩
    · rw [mem_run_alt]
      left
      simp only [Regex.run]
      exact mem_atom.mpr ⟨b, rfl, hd b (List.mem_cons_of_mem _ (List.mem_cons_self _ _))⟩
  | [], hl, _ => simp at hl
  | _ :: _ :: _ :: _, hl, _ => simp at hl

/-- The ordinal pattern matches a name that is only an ordinal from its first character. -/
theorem number_whole (n : Nat) (w1 i f w2 : List Char)
    (h1 : ∀ c ∈ w1, isSpace c = true) (h2 : ∀ c ∈ w2, isSpace c = true)
    (hi : (i.length = 1 ∨ i.length = 2) ∧ ∀ c ∈ i, isDigit c = true)
    (hf : f = [] ∨ ∃ g, f = '.' :: g ∧ (g.length = 1 ∨ g.length = 2) ∧
      ∀ c ∈ g, isDigit c = true) :
    [] ∈ regexConfig.number.source.run false n (w1 ++ i ++ f ++ w2) := by
  have hend : [] ∈ (Regex.seq (.star .space) .eol).run false n w2 := by
    rw [mem_run_seq]
    refine ⟨[], ?_, by simp [Regex.run]⟩
    have := star_space_run false n [] w2 h2
    rw [List.append_nil] at this
    exact this
  rw [number_source, mem_run_seq]
  refine ⟨i ++ f ++ w2, ?_, ?_⟩
  · have := star_space_run false n (i ++ f ++ w2) w1 h1
    simpa only [List.append_assoc] using this
  · rw [mem_run_seq]
    refine ⟨w2, ?_, hend⟩
    rw [mem_run_alt]
    rcases hf with rfl | ⟨g, rfl, hg1, hg2⟩
    · left
      rw [List.append_nil]
      exact digits12_run false n w2 i hi.1 hi.2
    · right
      rw [mem_run_seq]
      refine ⟨'.' :: g ++ w2, ?_, ?_⟩
      · rw [List.append_assoc]
        exact digits12_run false n _ i hi.1 hi.2
      · rw [mem_run_seq]
        refine ⟨g ++ w2, ?_, digits12_run false n w2 g hg1 hg2⟩
        simp only [Regex.run]
        exact mem_atom.mpr ⟨'.', rfl, by decide⟩

/-- What `processNodeName` returns when nothing is left after the removal of the ordinal. -/
theorem processNodeName_of_empty {name : String} (h : stripped name = "") :
    processNodeName name =
      { name := "", region := none, multiplier := none, specialTag := none } := by
  have hr : (processNodeName name).region = none := by
    rw [region_eq, h]
    decide
  have ht : (processNodeName name).specialTag = none := by
    rw [specialTag_eq, h]
    decide
  have hm : (processNodeName name).multiplier = none := by
    rw [multiplier_eq, h]
    decide
  have hn : (processNodeName name).name = "" := by
    rw [name_of_none name hr ht hm]
    exact h
  generalize processNodeName name = x at hr ht hm hn
  cases x
  simp only at hr ht hm hn
  rw [hr, ht, hm, hn]

/-! ## The text "BGP" after the substitutions -/

/-- An occurrence of "BGP" in a concatenation lies in one of the two parts or straddles the
joint. -/
theorem bgp_append_cases {x y : List Char} (h : "BGP".data <:+: x ++ y) :
    "BGP".data <:+: x ∨ "BGP".data <:+: y ∨
      (x.getLast? = some 'B' ∧ y.head? = some 'G') ∨
      (x.getLast? = some 'G' ∧ y.head? = some 'P') := by
  obtain ⟨p, q, h⟩ := h
  rw [List.append_assoc, List.append_eq_append_iff] at h
  rcases h with ⟨a, hx, hy⟩ | ⟨c, hp, hy⟩
  · rcases a with _ | ⟨a1, _ | ⟨a2, _ | ⟨a3, a⟩⟩⟩
    · right; left
      exact ⟨[], q, by simpa using hy⟩
    · right; right; left
      simp only [List.cons_append, List.nil_append, List.cons.injEq] at hy
      obtain ⟨h1, h2⟩ := hy
      rw [hx, ← h1, ← h2]
      simp
    · right; right; right
      simp only [List.cons_append, List.nil_append, List.cons.injEq] at hy
      obtain ⟨h1, h2, h3⟩ := hy
      rw [hx, ← h2, ← h3]
      simp
    · left
      simp only [List.cons_append, List.cons.injEq] at hy
      obtain ⟨h1, h2, h3, -⟩ := hy
      exact ⟨p, a, by rw [hx, ← h1, ← h2, ← h3]; simp⟩
  · right; left
    exact ⟨c, q, by rw [hy, List.append_assoc]⟩

/-- A replacement text that neither contains "BGP" nor can complete one with the text before
or after it. -/
theorem safe_join {pre repl rest : List Char} (hpre : ¬ "BGP".data <:+: pre)
    (hrest : ¬ "BGP".data <:+: rest) (h0 : repl ≠ [])
    (hG : repl.head? ≠ some 'G') (hP : repl.head? ≠ some 'P')
    (hB : repl.getLast? ≠ some 'B') (hG2 : repl.getLast? ≠ some 'G')
    (hin : ¬ "BGP".data <:+: repl) : ¬ "BGP".data <:+: pre ++ repl ++ rest := by
  intro h
  have hlast : (pre ++ repl).getLast? = repl.getLast? := by
    rw [List.getLast?_append, Option.or_of_isSome]
    cases hr : repl with
    | nil => exact absurd hr h0
    | cons a l => simp [List.getLast?_cons_cons]
  rcases bgp_append_cases h with h | h | ⟨h, -⟩ | ⟨h, -⟩
  · rcases bgp_append_cases h with h | h | ⟨-, h⟩ | ⟨-, h⟩
    · exact hpre h
    · exact hin h
    · exact hG h
    · exact hP h
  · exact hrest h
  · rw [hlast] at h
    exact hB h
  · rw [hlast] at h
    exact hG2 h

theorem bgp_free_part {a b : List Char} (hab : a <:+: b) (h : ¬ "BGP".data <:+: b) :
    ¬ "BGP".data <:+: a :=
  fun ha => h (ha.trans hab)

/-- A global substitution with a safe replacement text yields a text free of "BGP", when the
text skipped before each match and the text left after the last one are free of it. -/
theorem replaceLoop_free (ic : Bool) (n : Nat) (r : Regex) (repl : List Char)
    (hc : r.consuming = true) (h0 : repl ≠ [])
    (hG : repl.head? ≠ some 'G') (hP : repl.head? ≠ some 'P')
    (hB : repl.getLast? ≠ some 'B') (hG2 : repl.getLast? ≠ some 'G')
    (hin : ¬ "BGP".data <:+: repl) (Q : List Char → Prop)
    (hnone : ∀ s, Q s → search ic n r s = none → ¬ "BGP".data <:+: s)
    (hsome : ∀ s pre m t, Q s → search ic n r s = some (pre, m, t) →
      ¬ "BGP".data <:+: pre ∧ Q t) :
    ∀ (f : Nat) (s : List Char), s.length < f → Q s →
      ¬ "BGP".data <:+: replaceLoop ic n r repl f s
  | 0, _, hf, _ => absurd hf (by omega)
  | f + 1, s, hf, hq => by
    rw [replaceLoop]
    cases hs : search ic n r s with
    | none => exact hnone s hq hs
    | some x =>
      obtain ⟨pre, m, t⟩ := x
      obtain ⟨hspec, hrun⟩ := search_spec ic n r s pre m t hs
      obtain ⟨hpre, hqt⟩ := hsome s pre m t hq hs
      have hlen := run_consuming ic n r hc _ _ hrun
      cases m with
      | nil => simp at hlen
      | cons y ys =>
        have ht : t.length < f := by
          rw [hspec] at hf
          simp only [List.length_append, List.length_cons] at hf
          omega
        exact safe_join hpre (replaceLoop_free ic n r repl hc h0 hG hP hB hG2 hin Q hnone hsome
          f t ht hqt) h0 hG hP hB hG2 hin

theorem search_none_run (ic : Bool) (n : Nat) (r : Regex) :
    ∀ s, search ic n r s = none → ∀ p1 p2, s = p1 ++ p2 → r.run ic n p2 = []
  | [], h, p1, p2, hp => by
    obtain ⟨-, rfl⟩ := List.append_eq_nil.mp hp.symm
    rw [search] at h
    split at h
    · simp at h
    · assumption
  | c :: cs, h, p1, p2, hp => by
    rw [search] at h
    split at h
    · simp at h
    · rename_i hrun
      cases p1 with
      | nil =>
        rw [List.nil_append] at hp
        rw [← hp]
        exact hrun
      | cons d p1 =>
        rw [List.cons_append, List.cons.injEq] at hp
        rw [Option.map_eq_none'] at h
        exact search_none_run ic n r cs h p1 p2 hp.2

theorem lit_bgp_nil {ic : Bool} {n : Nat} {s : List Char} (h : (lit "BGP").run ic n s = []) :
    ¬ "BGP".data <+: s := by
  rintro ⟨r, rfl⟩
  have := lit_run ic n "BGP" r
  rw [h] at this
  exact absurd this (by simp)

/-- The entry that rewrites "BGP" leaves no "BGP" behind. -/
theorem bgp_entry_free (s : String) :
    ¬ "BGP".data <:+:
      (strReplace s { source := lit "BGP", global := true } "B-G-P").data := by
  simp only [strReplace, if_true]
  refine replaceLoop_free false _ (lit "BGP") "B-G-P".data (by decide) (by decide) (by decide)
    (by decide) (by decide) (by decide) (by decide) (fun _ => True) ?_ ?_ _ _ (by omega) trivial
  · rintro s - hs ⟨p, q, hpq⟩
    have := search_none_run false _ _ s hs p ("BGP".data ++ q)
      (by rw [← hpq, List.append_assoc])
    exact lit_bgp_nil this ⟨q, rfl⟩
  · rintro s pre m t - hs
    refine ⟨?_, trivial⟩
    rintro ⟨p, q, hpq⟩
    have := search_skipped false _ _ s pre m t hs p ("BGP".data ++ q)
      (by rw [← hpq, List.append_assoc]) (by simp)
    exact lit_bgp_nil this ⟨q ++ m ++ t, by simp⟩

theorem replace_table_safe :
    ∀ e ∈ regexConfig.regionReplace.drop 2,
      e.2.global = true ∧ e.2.source.consuming = true ∧
      e.1.data ≠ [] ∧ e.1.data.head? ≠ some 'G' ∧ e.1.data.head? ≠ some 'P' ∧
      e.1.data.getLast? ≠ some 'B' ∧ e.1.data.getLast? ≠ some 'G' ∧
      ¬ "BGP".data <:+: e.1.data := by
  decide

/-- The later entries of `regionReplace` do not create a "BGP". -/
theorem later_entry_free {e : String × RegExp} (he : e ∈ regexConfig.regionReplace.drop 2)
    {s : String} (hs : ¬ "BGP".data <:+: s.data) :
    ¬ "BGP".data <:+: (strReplace s e.2 e.1).data := by
  obtain ⟨hg, hc, h0, hG, hP, hB, hG2, hin⟩ := replace_table_safe e he
  simp only [strReplace, hg, if_true]
  refine replaceLoop_free _ _ _ _ hc h0 hG hP hB hG2 hin (fun x => ¬ "BGP".data <:+: x)
    (fun _ hq _ => hq) ?_ _ _ (by omega) hs
  intro x pre m t hq hx
  have hspec := (search_spec _ _ _ _ _ _ _ hx).1
  constructor
  · exact bgp_free_part ⟨[], m ++ t, by rw [hspec]; simp⟩ hq
  · exact bgp_free_part ⟨pre ++ m, [], by rw [hspec]; simp⟩ hq

/-- The substituted name is free of "BGP". -/
theorem substituted_free (name : String) : ¬ "BGP".data <:+: (substituted name).data := by
  have htbl : regexConfig.regionReplace =
      ("GB", { source := lit "UK", global := true }) ::
      ("B-G-P", { source := lit "BGP", global := true }) ::
      regexConfig.regionReplace.drop 2 := rfl
  unfold substituted
  rw [htbl, List.foldl_cons, List.foldl_cons]
  exact foldl_invariant (fun b : String => ¬ "BGP".data <:+: b.data) _ _
    (fun e he b hb => later_entry_free he hb) _ (bgp_entry_free _)

/-- The stripped name is free of "BGP". -/
theorem stripped_free (name : String) : ¬ "BGP".data <:+: (stripped name).data := by
  unfold stripped
  have h := substituted_free name
  generalize substituted name = s at h
  cases hs : regexConfig.number.exec s with
  | none =>
    have : strReplace s regexConfig.number "" = s := by
      simp only [strReplace, hs]
      rfl
    rw [this]
    exact h
  | some x =>
    obtain ⟨pre, m, t⟩ := x
    have hspec := search_spec _ _ _ _ _ _ _ hs
    have : strReplace s regexConfig.number "" = String.mk (pre ++ t) := by
      simp only [strReplace, hs]
      simp [regexConfig.number]
    rw [this]
    obtain ⟨rfl, -⟩ := number_match hspec.2
    exact bgp_free_part ⟨[], m, by rw [hspec.1]; simp⟩ h

/-! ## Properties of the specification -/

/-- C1: a node is in the list returned by `cleanNodes` exactly when it is the renaming of an
input node whose name does not match `regexConfig.removeNodes`; so no node whose original name
matches the junk pattern is returned, and the node named "狮城01-IEPL-x2套餐到期" is dropped. -/
theorem cleanNodes_drops_junk {ω : Type} (proxies : List (ProxyNode ω)) (q : ProxyNode ω)
    (w : ω) :
    (q ∈ cleanNodes proxies ↔
      ∃ p ∈ proxies, regexConfig.removeNodes.test p.name = false ∧
        q = { p with name := (processNodeName p.name).name }) ∧
    regexConfig.removeNodes.test "狮城01-IEPL-x2套餐到期" = true ∧
    cleanNodes [({ name := "狮城01-IEPL-x2套餐到期", fields := w } : ProxyNode ω)] = [] := by
  have hj : regexConfig.removeNodes.test "狮城01-IEPL-x2套餐到期" = true := by decide
  refine ⟨?_, hj, ?_⟩
  · rw [cleanNodes_eq_map_filter]
    simp only [List.mem_map, List.mem_filter, Bool.not_eq_true']
    constructor
    · rintro ⟨p, ⟨hp, hn⟩, rfl⟩
      exact ⟨p, hp, hn, rfl⟩
    · rintro ⟨p, hp, hn, rfl⟩
      exact ⟨p, ⟨hp, hn⟩, rfl⟩
  · simp [cleanNodes, cleanNode, hj]

/-- C2: on "HKT-02 IPLC x2" the trailing digit of the multiplier is removed as an ordinal before
the multiplier is looked for, so `processNodeName` detects region HK and tag IPLC but no
multiplier, and returns the name "HK IPLC". -/
theorem processNodeName_hkt :
    processNodeName "HKT-02 IPLC x2" =
      { name := "HK IPLC", region := some "HK", multiplier := none, specialTag := some "IPLC" } ∧
    stripped "HKT-02 IPLC x2" = "HKT-02 IPLC x" := by
  decide

/-- C3 as stated fails: "HK x2 IPLC" survives as "HK IPLC x2" and "abc123" as "abc1", and
`regexConfig.number` matches both output names. -/
theorem cleanNodes_number_counterexample :
    cleanNodes [({ name := "HK x2 IPLC", fields := () } : ProxyNode Unit),
        { name := "abc123", fields := () }] =
      [{ name := "HK IPLC x2", fields := () }, { name := "abc1", fields := () }] ∧
    regexConfig.number.test "HK IPLC x2" = true ∧
    regexConfig.number.test "abc1" = true := by
  decide

/-- C3, amended: a node that survives `cleanNodes` carries the name `processNodeName` computes
for its original name, and `regexConfig.number` does not match that name (a) when at least one
field is detected and the multiplier, if any, does not end in a digit, and (b) when no field is
detected and the ordinal removed from the substituted name, if any, does not follow a digit. -/
theorem cleanNodes_number {ω : Type} (proxies : List (ProxyNode ω)) (q : ProxyNode ω)
    (hq : q ∈ cleanNodes proxies) :
    ∃ p ∈ proxies, q.name = (processNodeName p.name).name ∧
      (((processNodeName p.name).region ≠ none ∨ (processNodeName p.name).specialTag ≠ none ∨
          (processNodeName p.name).multiplier ≠ none) →
        (∀ w, (processNodeName p.name).multiplier = some w →
          ∀ c, w.data.getLast? = some c → isDigit c = false) →
        regexConfig.number.test q.name = false) ∧
      ((processNodeName p.name).region = none → (processNodeName p.name).specialTag = none →
        (processNodeName p.name).multiplier = none →
        (∀ pre m t, regexConfig.number.exec (substituted p.name) = some (pre, m, t) →
          ∀ c, pre.getLast? = some c → isDigit c = false) →
        regexConfig.number.test q.name = false) := by
  obtain ⟨p, hp, -, hname, -⟩ := name_of_mem_cleanNodes hq
  rw [hname]
  refine ⟨p, hp, rfl, ?_, ?_⟩
  · intro hf hm
    have hne : (processNodeName p.name).region.toList ++
        (processNodeName p.name).specialTag.toList ++
        (processNodeName p.name).multiplier.toList ≠ [] := by
      rcases hf with h | h | h
      · obtain ⟨w, hw⟩ := Option.ne_none_iff_exists'.mp h
        rw [hw]
        simp
      · obtain ⟨w, hw⟩ := Option.ne_none_iff_exists'.mp h
        rw [hw]
        simp
      · obtain ⟨w, hw⟩ := Option.ne_none_iff_exists'.mp h
        rw [hw]
        simp
    rw [Bool.eq_false_iff]
    intro htest
    obtain ⟨c, hc, hcl⟩ := number_test htest
    have := name_last_of_fields p.name c hne hm hc
    rcases hcl with h | h
    · rw [this.1] at h
      exact absurd h (by simp)
    · rw [this.2] at h
      exact absurd h (by simp)
  · intro hr ht hm hd
    rw [name_of_none p.name hr ht hm]
    exact strip_number _ hd

theorem cleanNodes_number_witness :
    ({ name := "HK", fields := () } : ProxyNode Unit) ∈
        cleanNodes [{ name := "HK 01", fields := () }] ∧
    ({ name := "abc", fields := () } : ProxyNode Unit) ∈
        cleanNodes [{ name := "abc 01", fields := () }] ∧
    regexConfig.number.test "HK" = false ∧ regexConfig.number.test "abc" = false := by
  have h1 : ({ name := "HK", fields := () } : ProxyNode Unit) ∈
      cleanNodes [{ name := "HK 01", fields := () }] := by decide
  have h2 : ({ name := "abc", fields := () } : ProxyNode Unit) ∈
      cleanNodes [{ name := "abc 01", fields := () }] := by decide
  refine ⟨h1, h2, ?_, ?_⟩
  · obtain ⟨p, hp, -, ha, -⟩ := cleanNodes_number _ _ h1
    rw [List.mem_singleton] at hp
    subst hp
    refine ha (Or.inl (by decide)) ?_
    intro w hw
    have hnone : (processNodeName "HK 01").multiplier = none := by decide
    rw [hnone] at hw
    exact absurd hw (by simp)
  · obtain ⟨p, hp, -, -, hb⟩ := cleanNodes_number _ _ h2
    rw [List.mem_singleton] at hp
    subst hp
    refine hb (by decide) (by decide) (by decide) ?_
    intro pre m t hx c hc
    have hexec : regexConfig.number.exec (substituted "abc 01") =
        some (['a', 'b', 'c'], [' ', '0', '1'], []) := by decide
    rw [hexec, Option.some.injEq, Prod.mk.injEq] at hx
    rw [← hx.1] at hc
    simp only [List.getLast?_cons_cons, List.getLast?_singleton, Option.some.injEq] at hc
    rw [← hc]
    decide

/-- C4 fails on the code: for the single node "HK 01" the emitted group "ChatGPT" lists
"美国节点", which is neither DIRECT or REJECT, nor the name of a cleaned node, nor the name
of an emitted group. -/
theorem addProxyGroups_dangling :
    ∃ out gs,
      (main (some ({ proxies := some [{ name := "HK 01", fields := () }],
                     dns := none, fields := [] } : Params Unit))).1 = some out ∧
      out.proxies = some [{ name := "HK", fields := () }] ∧
      List.lookup "proxy-groups" out.fields = some (Value.groups gs) ∧
      gs.map (fun g => g.name) =
        ["代理模式", "手动选择", "自动选择", "负载均衡(散列)", "负载均衡(轮询)", "ChatGPT", "Claude",
         "Spotify", "电报消息", "广告拦截", "HK-自动选择", "HK-手动选择"] ∧
      ∃ g ∈ gs, g.name = "ChatGPT" ∧ "美国节点" ∈ g.proxies ∧
        "美国节点" ∉ ["DIRECT", "REJECT"] ∧ "美国节点" ∉ ["HK"] ∧
        "美国节点" ∉ gs.map (fun g => g.name) := by
  refine ⟨_, groups ["HK"], rfl, ?_, rfl, ?_, ?_⟩
  · decide
  · decide
  · decide

/-- C5: `cleanNodes` returns the nodes whose name does not match the junk pattern, in their
original order, each with its name replaced by the name `processNodeName` computes and its
other fields unchanged. -/
theorem cleanNodes_filter_rename {ω : Type} (proxies : List (ProxyNode ω)) :
    cleanNodes proxies =
      (proxies.filter (fun p => !regexConfig.removeNodes.test p.name)).map
        (fun p => { name := (processNodeName p.name).name, fields := p.fields }) :=
  cleanNodes_eq_map_filter proxies

/-- C6: when `processNodeName` detects a region, a special tag or a multiplier, the name it
returns is the detected fields joined by single spaces in the order region, special tag,
multiplier, absent fields skipped; no field is empty or contains a space, so the name has no
leading, trailing or doubled space. -/
theorem processNodeName_join (name : String)
    (h : (processNodeName name).region ≠ none ∨ (processNodeName name).specialTag ≠ none ∨
      (processNodeName name).multiplier ≠ none) :
    (processNodeName name).name =
      " ".intercalate ((processNodeName name).region.toList ++
        (processNodeName name).specialTag.toList ++ (processNodeName name).multiplier.toList) ∧
    (∀ f ∈ (processNodeName name).region.toList ++ (processNodeName name).specialTag.toList ++
        (processNodeName name).multiplier.toList, f ≠ "" ∧ ' ' ∉ f.data) ∧
    (processNodeName name).name.data.head? ≠ some ' ' ∧
    (processNodeName name).name.data.getLast? ≠ some ' ' ∧
    ¬ [' ', ' '] <:+: (processNodeName name).name.data := by
  have hne : (processNodeName name).region.toList ++ (processNodeName name).specialTag.toList ++
      (processNodeName name).multiplier.toList ≠ [] := by
    rcases h with h | h | h
    · obtain ⟨w, hw⟩ := Option.ne_none_iff_exists'.mp h
      rw [hw]
      simp
    · obtain ⟨w, hw⟩ := Option.ne_none_iff_exists'.mp h
      rw [hw]
      simp
    · obtain ⟨w, hw⟩ := Option.ne_none_iff_exists'.mp h
      rw [hw]
      simp
  obtain ⟨h1, h2⟩ := name_of_fields name hne
  exact ⟨h1, fun f hf => (detected_fields name f hf).1, h2.2.1, h2.2.2.1, tidy_no_double h2⟩

theorem processNodeName_join_witness :
    (processNodeName "HK x2 IPLC").name =
      " ".intercalate ((processNodeName "HK x2 IPLC").region.toList ++
        (processNodeName "HK x2 IPLC").specialTag.toList ++
        (processNodeName "HK x2 IPLC").multiplier.toList) ∧
    (∀ f ∈ (processNodeName "HK x2 IPLC").region.toList ++
        (processNodeName "HK x2 IPLC").specialTag.toList ++
        (processNodeName "HK x2 IPLC").multiplier.toList, f ≠ "" ∧ ' ' ∉ f.data) ∧
    (processNodeName "HK x2 IPLC").name.data.head? ≠ some ' ' ∧
    (processNodeName "HK x2 IPLC").name.data.getLast? ≠ some ' ' ∧
    ¬ [' ', ' '] <:+: (processNodeName "HK x2 IPLC").name.data :=
  processNodeName_join "HK x2 IPLC" (Or.inl (by decide))

/-- C7 as stated fails: for "abc 01" nothing is detected, yet the returned name "abc" is not
the substituted name "abc 01". -/
theorem processNodeName_plain_counterexample :
    (processNodeName "abc 01").region = none ∧
    (processNodeName "abc 01").specialTag = none ∧
    (processNodeName "abc 01").multiplier = none ∧
    substituted "abc 01" = "abc 01" ∧
    (processNodeName "abc 01").name = "abc" ∧
    (processNodeName "abc 01").name ≠ substituted "abc 01" := by
  decide

/-- C7, amended: when no region, special tag or multiplier is detected, the returned name is
the name after the `regionReplace` substitutions and the removal of the trailing ordinal. -/
theorem processNodeName_plain (name : String)
    (hr : (processNodeName name).region = none)
    (ht : (processNodeName name).specialTag = none)
    (hm : (processNodeName name).multiplier = none) :
    (processNodeName name).name = strReplace (substituted name) regexConfig.number "" := by
  simp only [processNodeName] at hr ht hm ⊢
  rw [hr, ht, hm]
  simp [pushIf, stripped, String.intercalate]

theorem processNodeName_plain_witness :
    (processNodeName "abc 01").name = strReplace (substituted "abc 01") regexConfig.number "" :=
  processNodeName_plain "abc 01" (by decide) (by decide) (by decide)

/-- C8 as stated fails: the node "SUChuncheon" is not junk, and `cleanNodes` keeps it as
"SUKorea Chuncheon" with no region detected; that name is not junk either, and on it the
second pass rewrites "UK" to "GB" and detects SG, so that `cleanNodes` renames it to "SG". -/
theorem region_idempotent_counterexample :
    regexConfig.removeNodes.test "SUChuncheon" = false ∧
    cleanNodes [({ name := "SUChuncheon", fields := () } : ProxyNode Unit)] =
      [{ name := "SUKorea Chuncheon", fields := () }] ∧
    (processNodeName "SUChuncheon").region = none ∧
    (processNodeName "SUChuncheon").name = "SUKorea Chuncheon" ∧
    regexConfig.removeNodes.test "SUKorea Chuncheon" = false ∧
    cleanNodes [({ name := "SUKorea Chuncheon", fields := () } : ProxyNode Unit)] =
      [{ name := "SG", fields := () }] ∧
    (processNodeName "SUKorea Chuncheon").region = some "SG" ∧
    (processNodeName (processNodeName "SUChuncheon").name).region ≠
      (processNodeName "SUChuncheon").region := by
  decide

/-- C8, amended: when `processNodeName` detects a region for a name, it detects the same
region for the name it returned. -/
theorem region_stable (name R : String) (h : (processNodeName name).region = some R) :
    (processNodeName (processNodeName name).name).region = some R := by
  have hR := region_key h
  obtain ⟨rest, hdata, hrest⟩ := name_data_of_region h
  rcases hrest with rfl | ⟨r, rfl, hr⟩
  · have : (processNodeName name).name = R := by
      rw [List.append_nil] at hdata
      exact String.ext hdata
    rw [this]
    exact region_fixed R hR
  · obtain ⟨ab, hab, hkey, hna, hnb⟩ := key_pair hR
    rw [hkey] at hdata
    obtain ⟨r2, h2, -⟩ := substituted_keeps ab hab (processNodeName name).name r hdata hr
    obtain ⟨r3, h3⟩ := strip_keeps ab.1 ab.2 _ (' ' :: r2) h2 hna hnb
    rw [region_eq]
    exact region_of_prefix R hR _ r3 (by rw [hkey]; exact h3)

theorem region_stable_witness :
    (processNodeName (processNodeName "HKT-02 IPLC x2").name).region = some "HK" :=
  region_stable "HKT-02 IPLC x2" "HK" (by decide)

/-- C9: for each region of the table and every list of nodes, among the groups that
`addProxyGroups` emits there is one named "R-自动选择" exactly when some node name matches the
pattern of R, and its members are the matching names in list order; likewise one named
"R-手动选择", whose members are DIRECT followed by the same names; when no name matches there is
neither. -/
theorem region_groups {ω : Type} (params : Params ω) (proxies : List (ProxyNode ω))
    (hp : params.proxies = some proxies) (e : String × RegExp) (he : e ∈ regexConfig.regions) :
    ∃ out gs,
      addProxyGroups params = .ok out ∧
      List.lookup "proxy-groups" out.fields = some (Value.groups gs) ∧
      (gs.filter (fun g => g.name == e.1 ++ "-自动选择")).map (fun g => g.proxies) =
        (if (proxies.map (fun p => p.name)).filter (fun name => e.2.test name) = [] then []
         else [(proxies.map (fun p => p.name)).filter (fun name => e.2.test name)]) ∧
      (gs.filter (fun g => g.name == e.1 ++ "-手动选择")).map (fun g => g.proxies) =
        (if (proxies.map (fun p => p.name)).filter (fun name => e.2.test name) = [] then []
         else ["DIRECT" :: (proxies.map (fun p => p.name)).filter (fun name => e.2.test name)]) :=
  ⟨_, groups (proxies.map (fun p => p.name)), by rw [addProxyGroups, hp], lookup_setKey _ _ _,
    groups_by_region _ _ _ _ _ _ _ rfl e he⟩

theorem region_groups_witness :
    ∃ out gs,
      addProxyGroups
        ({ proxies := some [⟨"HK", ()⟩, ⟨"SG IEPL", ()⟩, ⟨"hk 2x", ()⟩], dns := none,
           fields := [] } : Params Unit) = .ok out ∧
      List.lookup "proxy-groups" out.fields = some (Value.groups gs) ∧
      (gs.filter (fun g => g.name == "HK" ++ "-自动选择")).map (fun g => g.proxies) =
        [ ["HK", "hk 2x"] ] ∧
      (gs.filter (fun g => g.name == "HK" ++ "-手动选择")).map (fun g => g.proxies) =
        [ ["DIRECT", "HK", "hk 2x"] ] := by
  obtain ⟨out, gs, h1, h2, h3, h4⟩ :=
    region_groups
      ({ proxies := some [⟨"HK", ()⟩, ⟨"SG IEPL", ()⟩, ⟨"hk 2x", ()⟩], dns := none,
         fields := [] } : Params Unit) _ rfl ("HK", _) (List.mem_cons_self _ _)
  exact ⟨out, gs, h1, h2, h3.trans (by decide), h4.trans (by decide)⟩

/-- C10: for a missing configuration, a missing `proxies` key or an empty `proxies` list,
`main` returns its argument as it was, posting one notification; being a total function it
never fails. -/
theorem main_without_proxies {ω : Type} (params : Option (Params ω))
    (h : params = none ∨ ∃ p, params = some p ∧ (p.proxies = none ∨ p.proxies = some [])) :
    (main params).1 = params ∧
    (main params).2 =
      [{ title := "Sub-Store Rules", subtitle := "处理失败", body := "节点列表为空" }] := by
  rcases h with rfl | ⟨p, rfl, h | h⟩
  · exact ⟨rfl, rfl⟩
  · simp [main, h, failure, scriptName]
  · simp [main, h, failure, scriptName]

theorem main_without_proxies_witness :
    (main (some ({ proxies := some [], dns := none, fields := [] } : Params Unit))).1 =
        some { proxies := some [], dns := none, fields := [] } ∧
    (main (some ({ proxies := some [], dns := none, fields := [] } : Params Unit))).2 =
      [{ title := "Sub-Store Rules", subtitle := "处理失败", body := "节点列表为空" }] :=
  main_without_proxies _ (Or.inr ⟨_, rfl, Or.inr rfl⟩)

/-- C11: the rule list that `addRules` writes has exactly one entry of type MATCH, and that
entry is the last of the list. -/
theorem rules_single_match {ω : Type} (params : Params ω) :
    List.lookup "rules" (addRules params).fields = some (Value.rules rules) ∧
    (rules.filter (fun r => ruleType r == "MATCH")).length = 1 ∧
    rules.getLast? = some "MATCH,漏网之鱼" ∧
    ruleType "MATCH,漏网之鱼" = "MATCH" :=
  ⟨lookup_setKey _ _ _, by decide, by decide, by decide⟩

/-- C12: `addDns` keeps the `proxies` key and the value under every other top-level key than
the six client options it assigns, and in a `dns` object that was there it keeps the value
under every key other than the seven it assigns. -/
theorem addDns_frame {ω : Type} (params : Params ω) :
    (addDns params).proxies = params.proxies ∧
    (∀ k, k ∉ ["unified-delay", "tcp-concurrent", "profile", "sniffer", "geodata-mode",
        "geox-url"] →
      List.lookup k (addDns params).fields = List.lookup k params.fields) ∧
    (∀ d, params.dns = some d →
      ∃ d2, (addDns params).dns = some d2 ∧
        ∀ k, k ∉ ["enable", "prefer-h3", "default-nameserver", "nameserver",
            "nameserver-policy", "fallback", "fallback-filter"] →
          List.lookup k d2 = List.lookup k d) := by
  refine ⟨rfl, ?_, ?_⟩
  · intro k hk
    apply lookup_assign_ne
    intro e he
    simp only [otherOptions, List.mem_cons, List.mem_singleton, List.not_mem_nil, or_false]
      at he hk
    rcases he with rfl | rfl | rfl | rfl | rfl | rfl <;> tauto
  · intro d hd
    refine ⟨assign d dnsOptions, by simp [addDns, hd], ?_⟩
    intro k hk
    apply lookup_assign_ne
    intro e he
    simp only [dnsOptions, List.mem_cons, List.mem_singleton, List.not_mem_nil, or_false]
      at he hk
    rcases he with rfl | rfl | rfl | rfl | rfl | rfl | rfl <;> tauto

/-- C13 as stated fails: a node named "手动选择" is kept by the clean-up under that name, and
the group 手动选择, which lists every node name, then lists itself. -/
theorem groups_acyclic_counterexample :
    ∃ out gs,
      cleanNodes [({ name := "手动选择", fields := () } : ProxyNode Unit)] =
        [{ name := "手动选择", fields := () }] ∧
      addProxyGroups ({ proxies := some [{ name := "手动选择", fields := () }],
                        dns := none, fields := [] } : Params Unit) = .ok out ∧
      List.lookup "proxy-groups" out.fields = some (Value.groups gs) ∧
      refers gs "手动选择" "手动选择" ∧
      Relation.TransGen (refers gs) "手动选择" "手动选择" := by
  have hmem : ∃ G ∈ groups ["手动选择"], G.name = "手动选择" ∧ "手动选择" ∈ G.proxies :=
    ⟨_, List.mem_cons_of_mem _ (List.mem_cons_self _ _), rfl, List.mem_singleton_self _⟩
  obtain ⟨G, hG, hn, hp⟩ := hmem
  have href : refers (groups ["手动选择"]) "手动选择" "手动选择" := ⟨G, hG, hn, hp, G, hG, hn⟩
  exact ⟨_, groups ["手动选择"], by decide, rfl, rfl, href, Relation.TransGen.single href⟩

/-- C13, amended: when no node carries the name of an emitted group, the reference graph among
the groups that `addProxyGroups` emits has no cycle. -/
theorem groups_acyclic {ω : Type} (params : Params ω) (proxies : List (ProxyNode ω))
    (hp : params.proxies = some proxies)
    (hfresh : ∀ p ∈ proxies, ∀ G ∈ groups (proxies.map (fun p => p.name)), p.name ≠ G.name) :
    ∃ out gs,
      addProxyGroups params = .ok out ∧
      List.lookup "proxy-groups" out.fields = some (Value.groups gs) ∧
      gs = groups (proxies.map (fun p => p.name)) ∧
      ∀ g, ¬ Relation.TransGen (refers gs) g g := by
  refine ⟨_, groups (proxies.map (fun p => p.name)), by rw [addProxyGroups, hp],
    lookup_setKey _ _ _, rfl, ?_⟩
  intro g hg
  refine lt_irrefl _ (transGen_rank ?_ hg)
  intro n hn G hG
  obtain ⟨p, hp, rfl⟩ := List.mem_map.mp hn
  exact hfresh p hp G hG

theorem groups_acyclic_witness :
    ∃ out gs,
      addProxyGroups ({ proxies := some [⟨"HK", ()⟩, ⟨"SG IEPL", ()⟩], dns := none,
                        fields := [] } : Params Unit) = .ok out ∧
      List.lookup "proxy-groups" out.fields = some (Value.groups gs) ∧
      gs = groups ([(⟨"HK", ()⟩ : ProxyNode Unit), ⟨"SG IEPL", ()⟩].map (fun p => p.name)) ∧
      ∀ g, ¬ Relation.TransGen (refers gs) g g :=
  groups_acyclic
    ({ proxies := some [⟨"HK", ()⟩, ⟨"SG IEPL", ()⟩], dns := none, fields := [] } : Params Unit)
    [⟨"HK", ()⟩, ⟨"SG IEPL", ()⟩] rfl (by decide)

/-- C14: in what `addRules` writes, the match value of every RULE-SET rule is a key of the
rule providers, and every key of the rule providers is the match value of exactly one
RULE-SET rule; no key occurs twice. -/
theorem rules_match_providers {ω : Type} (params : Params ω) :
    List.lookup "rules" (addRules params).fields = some (Value.rules rules) ∧
    List.lookup "rule-providers" (addRules params).fields =
      some (Value.providers ruleProviders) ∧
    (∀ r ∈ rules, ruleType r = "RULE-SET" →
      ∃ k ∈ ruleProviders.map (fun e => e.1), ruleValue r = some k) ∧
    (∀ k ∈ ruleProviders.map (fun e => e.1),
      (rules.filter (fun r => ruleType r == "RULE-SET" && ruleValue r == some k)).length = 1) ∧
    (ruleProviders.map (fun e => e.1)).Nodup := by
  refine ⟨lookup_setKey _ _ _, ?_, by decide, by decide, by decide⟩
  unfold addRules
  rw [lookup_setKey_ne _ _ _ (by decide)]
  exact lookup_setKey _ _ _

/-- C15: for a configuration with a non-empty node list, `main` returns a configuration whose
`proxies` is the cleaned list and in which the member lists of 手动选择, 自动选择, 负载均衡(散列)
and 负载均衡(轮询) are each the names of the cleaned list, in its order. -/
theorem main_all_groups {ω : Type} (p : Params ω) (proxy : ProxyNode ω)
    (more : List (ProxyNode ω)) (hp : p.proxies = some (proxy :: more)) :
    ∃ out gs,
      main (some p) = (some out, []) ∧
      out.proxies = some (cleanNodes (proxy :: more)) ∧
      List.lookup "proxy-groups" out.fields = some (Value.groups gs) ∧
      ∀ n ∈ ["手动选择", "自动选择", "负载均衡(散列)", "负载均衡(轮询)"],
        (gs.filter (fun g => g.name == n)).map (fun g => g.proxies) =
          [(cleanNodes (proxy :: more)).map (fun q => q.name)] := by
  have hmain : main (some p) =
      (some (addDns
        { proxies := some (cleanNodes (proxy :: more)),
          dns := p.dns,
          fields := setKey
            (setKey (setKey p.fields "rule-providers" (.providers ruleProviders))
              "rules" (.rules rules))
            "proxy-groups"
            (.groups (groups ((cleanNodes (proxy :: more)).map (fun q => q.name)))) }), []) := by
    simp only [main, hp, addProxyGroups, addRules]
  refine ⟨_, groups ((cleanNodes (proxy :: more)).map (fun q => q.name)), hmain, rfl, ?_,
    fun n hn => groups_of_all _ _ _ _ _ _ _ rfl n hn⟩
  simp only [addDns]
  rw [lookup_assign_ne _ _ _ (by simp [otherOptions])]
  exact lookup_setKey _ _ _

theorem main_all_groups_witness :
    ∃ out gs,
      main (some ({ proxies := some [⟨"HK 01", ()⟩, ⟨"套餐到期", ()⟩, ⟨"SG IEPL 2x", ()⟩],
                    dns := none, fields := [] } : Params Unit)) = (some out, []) ∧
      out.proxies = some (cleanNodes [⟨"HK 01", ()⟩, ⟨"套餐到期", ()⟩, ⟨"SG IEPL 2x", ()⟩]) ∧
      List.lookup "proxy-groups" out.fields = some (Value.groups gs) ∧
      ∀ n ∈ ["手动选择", "自动选择", "负载均衡(散列)", "负载均衡(轮询)"],
        (gs.filter (fun g => g.name == n)).map (fun g => g.proxies) =
          [(cleanNodes [(⟨"HK 01", ()⟩ : ProxyNode Unit), ⟨"套餐到期", ()⟩,
            ⟨"SG IEPL 2x", ()⟩]).map (fun q => q.name)] :=
  main_all_groups
    ({ proxies := some [⟨"HK 01", ()⟩, ⟨"套餐到期", ()⟩, ⟨"SG IEPL 2x", ()⟩],
       dns := none, fields := [] } : Params Unit)
    ⟨"HK 01", ()⟩ [⟨"套餐到期", ()⟩, ⟨"SG IEPL 2x", ()⟩] rfl

/-- C16 fails on the code: the last rule, "MATCH,漏网之鱼", routes to a group named 漏网之鱼,
which is not DIRECT and is not among the groups emitted for any node list; every other rule
routes to DIRECT or to an emitted group. -/
theorem rules_target_missing :
    ∃ out rs gs,
      (main (some ({ proxies := some [{ name := "HK 01", fields := () }],
                     dns := none, fields := [] } : Params Unit))).1 = some out ∧
      List.lookup "rules" out.fields = some (Value.rules rs) ∧
      List.lookup "proxy-groups" out.fields = some (Value.groups gs) ∧
      "MATCH,漏网之鱼" ∈ rs ∧ ruleTarget "MATCH,漏网之鱼" = some "漏网之鱼" ∧
      "漏网之鱼" ≠ "DIRECT" ∧ "漏网之鱼" ∉ gs.map (fun g => g.name) ∧
      (∀ r ∈ rs, r ≠ "MATCH,漏网之鱼" →
        ∃ t, ruleTarget r = some t ∧ (t = "DIRECT" ∨ t ∈ gs.map (fun g => g.name))) ∧
      (∀ (names : List String) (G : ProxyGroup), G ∈ groups names → G.name ≠ "漏网之鱼") := by
  refine ⟨_, rules, groups ["HK"], rfl, rfl, rfl, ?_, ?_, ?_, ?_, ?_, ?_⟩
  · decide
  · decide
  · decide
  · decide
  · decide
  · intro names G hG hn
    have := group_name_mem hG
    rw [hn] at this
    revert this
    decide

/-- C17: no name matches the patterns of two entries of `regexConfig.regions`, and the keys of
the table are distinct; so the region that `processNodeName` detects is the same for every
order of the table, and two region groups that share a member, the DIRECT entry of the manual
groups apart, are groups of the same region. -/
theorem regions_exclusive (s : String) (names : List String) :
    (∀ e1 ∈ regexConfig.regions, ∀ e2 ∈ regexConfig.regions,
      e1.2.test s = true → e2.2.test s = true → e1 = e2) ∧
    (regexConfig.regions.map (fun e => e.1)).Nodup ∧
    (∀ tbl : List (String × RegExp), tbl.Perm regexConfig.regions →
      (tbl.find? (fun e => e.2.test (stripped s))).map (fun e => e.1) =
        (processNodeName s).region) ∧
    (∀ G1 ∈ autoProxyGroups names ++ manualProxyGroups names,
      ∀ G2 ∈ autoProxyGroups names ++ manualProxyGroups names,
        s ∈ G1.proxies → s ∈ G2.proxies → s ≠ "DIRECT" →
          ∃ e ∈ regexConfig.regions,
            G1.name ∈ [e.1 ++ "-自动选择", e.1 ++ "-手动选择"] ∧
            G2.name ∈ [e.1 ++ "-自动选择", e.1 ++ "-手动选择"]) ∧
    (∀ e ∈ regexConfig.regions, e.2.test "DIRECT" = false) := by
  refine ⟨fun e1 h1 e2 h2 t1 t2 => region_unique h1 h2 t1 t2, by decide, ?_, ?_, by decide⟩
  · intro tbl h
    rw [find_region_perm _ tbl h, region_eq]
  · intro G1 h1 G2 h2 s1 s2 hd
    obtain ⟨e1, he1, hn1, t1⟩ := mem_region_group h1 s1 hd
    obtain ⟨e2, he2, hn2, t2⟩ := mem_region_group h2 s2 hd
    rw [← region_unique he1 he2 t1 t2] at hn2
    exact ⟨e1, he1, hn1, hn2⟩

/-- C18: the name that `processNodeName` returns matches the pattern of a region exactly when
that region is the one detected, and matches none when no region is detected; so among the
groups built from the cleaned names, the members of "R-自动选择" and, after DIRECT, of
"R-手动选择" are the new names of the surviving nodes for which region R was detected. -/
theorem region_agrees {ω : Type} (name : String) (proxies : List (ProxyNode ω)) :
    (∀ e ∈ regexConfig.regions,
      (e.2.test (processNodeName name).name = true ↔
        (processNodeName name).region = some e.1)) ∧
    ((processNodeName name).region = none →
      ∀ e ∈ regexConfig.regions, e.2.test (processNodeName name).name = false) ∧
    (∀ e ∈ regexConfig.regions,
      ((groups ((cleanNodes proxies).map (fun p => p.name))).filter
          (fun g => g.name == e.1 ++ "-自动选择")).map (fun g => g.proxies) =
        (if ((proxies.filter (fun p => !regexConfig.removeNodes.test p.name)).filter
              (fun p => (processNodeName p.name).region == some e.1)).map
              (fun p => (processNodeName p.name).name) = [] then []
         else [((proxies.filter (fun p => !regexConfig.removeNodes.test p.name)).filter
              (fun p => (processNodeName p.name).region == some e.1)).map
              (fun p => (processNodeName p.name).name)]) ∧
      ((groups ((cleanNodes proxies).map (fun p => p.name))).filter
          (fun g => g.name == e.1 ++ "-手动选择")).map (fun g => g.proxies) =
        (if ((proxies.filter (fun p => !regexConfig.removeNodes.test p.name)).filter
              (fun p => (processNodeName p.name).region == some e.1)).map
              (fun p => (processNodeName p.name).name) = [] then []
         else ["DIRECT" ::
            ((proxies.filter (fun p => !regexConfig.removeNodes.test p.name)).filter
              (fun p => (processNodeName p.name).region == some e.1)).map
              (fun p => (processNodeName p.name).name)])) := by
  refine ⟨fun e he => test_iff_region name he, fun hr e he => no_region_no_match hr he, ?_⟩
  intro e he
  have h := groups_by_region ((cleanNodes proxies).map (fun p => p.name)) _ _ _ _ _ _ rfl e he
  rw [filter_cleaned proxies he] at h
  exact h

/-- C19: the special tag that `processNodeName` returns is never "BGP": after the entry of
`regionReplace` that rewrites "BGP" to "B-G-P", and after the later entries and the removal of
the ordinal, the text searched for a tag does not contain "BGP"; for "HK BGP 01" no tag is
found and the returned name is "HK". -/
theorem specialTag_not_bgp (name : String) :
    (processNodeName name).specialTag ≠ some "BGP" ∧
    ¬ "BGP".data <:+: (stripped name).data ∧
    processNodeName "HK BGP 01" =
      { name := "HK", region := some "HK", multiplier := none, specialTag := none } ∧
    stripped "HK BGP 01" = "HK B-G-P" := by
  refine ⟨?_, stripped_free name, by decide, by decide⟩
  intro h
  rw [specialTag_eq] at h
  obtain ⟨pre, t, hdata, -⟩ := strMatch_spec h
  exact stripped_free name ⟨pre, t, hdata.symm⟩

/-- C20: a node whose name is only a one- or two-digit number, with or without a decimal part
of one or two digits, and with or without white space around it, is not junk;
`processNodeName` detects nothing in it and returns the empty name, and the node is in the
list returned by `cleanNodes` under the empty name. -/
theorem cleanNodes_ordinal {ω : Type} (proxies : List (ProxyNode ω)) (p : ProxyNode ω)
    (hp : p ∈ proxies) (w1 i f w2 : List Char) (hname : p.name.data = w1 ++ i ++ f ++ w2)
    (h1 : ∀ c ∈ w1, isSpace c = true) (h2 : ∀ c ∈ w2, isSpace c = true)
    (hi : (i.length = 1 ∨ i.length = 2) ∧ ∀ c ∈ i, isDigit c = true)
    (hf : f = [] ∨ ∃ g, f = '.' :: g ∧ (g.length = 1 ∨ g.length = 2) ∧
      ∀ c ∈ g, isDigit c = true) :
    regexConfig.removeNodes.test p.name = false ∧
    processNodeName p.name =
      { name := "", region := none, multiplier := none, specialTag := none } ∧
    ({ name := "", fields := p.fields } : ProxyNode ω) ∈ cleanNodes proxies := by
  have hrun : regexConfig.number.source.run false p.name.data.length p.name.data ≠ [] := by
    intro h0
    have := number_whole p.name.data.length w1 i f w2 h1 h2 hi hf
    rw [← hname, h0] at this
    exact absurd this (by simp)
  obtain ⟨hchars, hstrip⟩ := strip_whole hrun
  have hjunk := removeNodes_of_number hchars
  have hempty : stripped p.name = "" := by
    unfold stripped
    rw [substituted_of_number hchars]
    exact hstrip
  have hproc := processNodeName_of_empty hempty
  refine ⟨hjunk, hproc, ?_⟩
  rw [mem_cleanNodes]
  refine ⟨p, hp, hjunk, ?_⟩
  rw [hproc]

theorem cleanNodes_ordinal_witness :
    regexConfig.removeNodes.test "01" = false ∧
    processNodeName "01" =
      { name := "", region := none, multiplier := none, specialTag := none } ∧
    ({ name := "", fields := () } : ProxyNode Unit) ∈
      cleanNodes [⟨"HK 01", ()⟩, ⟨"01", ()⟩] :=
  cleanNodes_ordinal [⟨"HK 01", ()⟩, ⟨"01", ()⟩] ⟨"01", ()⟩ (by simp) [] ['0', '1'] [] [] rfl
    (by simp) (by simp) ⟨Or.inr rfl, by decide⟩ (Or.inl rfl)

end SubStore
